import Mathlib

set_option autoImplicit false

/-!
Shallow embedding of the command-line argument resolution engine of the
vendored `revel` library (`revel/argument_parser.py` and `revel/common.py`),
together with proofs about its parser, value coercion and fuzzy matching.

Python exceptions are modelled by `PErr`: `argumentError` corresponds to
`ArgumentError` (caught by the surrounding code where the source catches it),
while `crash` models uncaught failures (assertion violations, `TypeError`,
`IndexError`).  Python dictionaries are modelled as insertion-ordered
association lists; Python sets as insertion-ordered duplicate-free lists,
faithful up to membership.
-/

namespace Revel

/-- Python-level failure: a catchable `ArgumentError` carrying a message, or
an uncatchable crash (assertion failure, `TypeError`, `IndexError`). -/
inductive PErr where
  | argumentError (msg : String)
  | crash (msg : String)
  deriving DecidableEq, Repr

/-- A typed value produced by coercion.  Floats are kept symbolically as the
accepted raw text, since only acceptance matters to the parser.  `vTuple`
models the tuples built for variadic parameters, `vNone` a Python `None`
default. -/
inductive Value where
  | vStr (s : String)
  | vBool (b : Bool)
  | vInt (n : Int)
  | vFloat (raw : String)
  | vNone
  | vTuple (vs : List Value)

/-- The type descriptors handled by `parse_value`: `str`, `typing.Any`,
`Literal[...]`, `bool`, `int`, `float`, `NoneType` and unions (which also
covers `Optional`, i.e. a union with a `NoneType` member). -/
inductive TypeDesc where
  | strT
  | anyT
  | boolT
  | intT
  | floatT
  | noneT
  | literalT (options : List String)
  | unionT (members : List TypeDesc)

/-- Whether the descriptor is exactly `bool`, modelling Python `typ is bool`. -/
def TypeDesc.isBool : TypeDesc → Bool
  | .boolT => true
  | _ => false

mutual

/-- Printed form of a type descriptor, modelling the interpolation of the
Python type object into error messages. -/
def TypeDesc.render : TypeDesc → String
  | .strT => "str"
  | .anyT => "typing.Any"
  | .boolT => "bool"
  | .intT => "int"
  | .floatT => "float"
  | .noneT => "None"
  | .literalT opts => "typing.Literal[" ++ String.intercalate ", " opts ++ "]"
  | .unionT ms => String.intercalate " | " (TypeDesc.renderList ms)

/-- Printed forms of a list of type descriptors. -/
def TypeDesc.renderList : List TypeDesc → List String
  | [] => []
  | t :: ts => t.render :: TypeDesc.renderList ts

end

/-- Python `str.strip()`: drop leading and trailing whitespace. -/
def pyStrip (s : String) : String :=
  String.mk
    (((s.data.dropWhile Char.isWhitespace).reverse.dropWhile
      Char.isWhitespace).reverse)

/-- Python `str.lower()` (on the ASCII alphabet used here). -/
def pyLower (s : String) : String :=
  String.mk (s.data.map Char.toLower)

/-- The normalization from `common.choose_string`:
`value.strip().lower().replace(" ", "-").replace("_", "-")`. -/
def normalize (value : String) : String :=
  String.mk
    ((((pyStrip value).data.map Char.toLower).map
        (fun c => if c = ' ' then '-' else c)).map
      (fun c => if c = '_' then '-' else c))

/-- Python substring containment (`needle in hay`) on char lists. -/
def containsChars (needle : List Char) : List Char → Bool
  | [] => needle.isEmpty
  | c :: rest => needle.isPrefixOf (c :: rest) || containsChars needle rest

/-- Python substring containment (`needle in hay`) on strings. -/
def strIn (needle hay : String) : Bool :=
  containsChars needle.data hay.data

/-- Python `set.add` modelled on insertion-ordered duplicate-free lists. -/
def insertUniq {α : Type} [DecidableEq α] (x : α) (xs : List α) : List α :=
  if x ∈ xs then xs else xs ++ [x]

/-- One iteration of the scanning loop in `choose_string` over the aliases of
the group with index `i`.  `Except.error i` models the early `return ii` on an
exact (normalized) match; otherwise the accumulated partial-match indices and
values are returned. -/
def scanGroup (sel : String) (i : Nat) :
    List String → List Nat × List String → Except Nat (List Nat × List String)
  | [], st => .ok st
  | choice :: rest, st =>
    let c := normalize choice
    if c = sel then .error i
    else if strIn sel c then
      scanGroup sel i rest (insertUniq i st.1, insertUniq c st.2)
    else
      scanGroup sel i rest st

/-- The full scanning loop of `choose_string` over all candidate groups. -/
def scanGroups (sel : String) :
    List (List String) → Nat → List Nat × List String →
    Except Nat (List Nat × List String)
  | [], _, st => .ok st
  | g :: rest, i, st =>
    match scanGroup sel i g st with
    | .error j => .error j
    | .ok st => scanGroups sel rest (i + 1) st

/-- Models the list comprehension building the canonical names,
`[x[0] for x in expanded_options]`; `none` models the `IndexError` raised on
an empty group. -/
def heads : List (List String) → Option (List String)
  | [] => some []
  | g :: rest =>
    match g with
    | [] => none
    | x :: _ => (heads rest).map (x :: ·)

/-- Outcome of `common.choose_string`: a returned index, or one of the two
exceptions it raises (`NoSuchOptionError` with the entered text and the
canonical names, `AmbiguousOptionError` with additionally the matched
normalized alias strings). -/
inductive ChooseResult where
  | found (index : Nat)
  | noSuchOption (entered : String) (available : List String)
  | ambiguousOption (entered : String) (matching : List String)
      (available : List String)
  deriving DecidableEq, Repr

/-- Embedding of `common.choose_string` (the caller has already expanded bare
strings into one-element groups). -/
def choose_string (options : List (List String)) (selection : String) :
    Except PErr ChooseResult :=
  let sel := normalize selection
  match scanGroups sel options 0 ([], []) with
  | .error i => .ok (.found i)
  | .ok (idxs, vals) =>
    match idxs with
    | [] =>
      match heads options with
      | none => .error (.crash "IndexError: empty option group")
      | some canon => .ok (.noSuchOption sel canon)
    | [i] => .ok (.found i)
    | _ =>
      match heads options with
      | none => .error (.crash "IndexError: empty option group")
      | some canon => .ok (.ambiguousOption sel vals canon)

/-- Embedding of `common.comma_separated_list`; `none` models the assertion
failure on an empty value list. -/
def commaSeparatedList (values : List String) (conjunction : Option String)
    (quote : Option String) : Option String :=
  match values with
  | [] => none
  | _ =>
    let vals :=
      match quote with
      | some q => values.map (fun v => q ++ v ++ q)
      | none => values
    match vals with
    | [v] => some v
    | _ =>
      match conjunction with
      | none => some (String.intercalate ", " vals.dropLast)
      | some conj =>
        match vals.getLast? with
        | none => none
        | some last =>
          some (String.intercalate ", " vals.dropLast ++ " " ++ conj
            ++ " " ++ last)

/-- Embedding of `_parse_literal`: resolve the raw text against the literal
options via `choose_string`, converting its exceptions into `ArgumentError`s. -/
def _parse_literal (raw : String) (options : List String) :
    Except PErr String :=
  match choose_string (options.map (fun v => [v])) raw with
  | .error e => .error e
  | .ok (.found i) =>
    match options[i]? with
    | some v => .ok v
    | none => .error (.crash "IndexError: literal index out of range")
  | .ok (.noSuchOption _ _) =>
    match commaSeparatedList options (some "and") (some "`") with
    | none => .error (.crash "AssertionError: empty list")
    | some optionsStr =>
      .error (.argumentError
        s!"`{raw}` is not valid here. Please provide one of {optionsStr}")
  | .ok (.ambiguousOption _ matching _) =>
    match commaSeparatedList matching (some "and") (some "`") with
    | none => .error (.crash "AssertionError: empty list")
    | some optionsStr =>
      .error (.argumentError
        s!"`{raw}` is ambiguous here. It could refer to either of {optionsStr}")

/-- Embedding of `_parse_bool`. -/
def _parse_bool (raw : String) : Except PErr Bool :=
  let r := pyLower raw
  if r = "true" ∨ r = "t" ∨ r = "yes" ∨ r = "y" ∨ r = "1" then .ok true
  else if r = "false" ∨ r = "f" ∨ r = "no" ∨ r = "n" ∨ r = "0" then .ok false
  else
    .error (.argumentError
      s!"`{r}` is not a valid boolean value. Use `true` or `false`")

/-- Numeric value of an ASCII digit. -/
def digitVal (c : Char) : Nat := c.toNat - 48

/-- Digit-run parser after the first digit: Python permits single underscores
between digits. -/
def parseDigitsAux : List Char → Nat → Option Nat
  | [], acc => some acc
  | '_' :: rest, acc =>
    match rest with
    | [] => none
    | c :: rest2 =>
      if c.isDigit then parseDigitsAux rest2 (acc * 10 + digitVal c) else none
  | c :: rest, acc =>
    if c.isDigit then parseDigitsAux rest (acc * 10 + digitVal c) else none

/-- Parses a non-empty digit run with optional single underscores between
digits, as accepted by Python `int` and `float`. -/
def parseDigits : List Char → Option Nat
  | [] => none
  | c :: rest => if c.isDigit then parseDigitsAux rest (digitVal c) else none

/-- Python `int(raw)` for base 10: strip whitespace, optional sign, digits. -/
def pyIntOfString (s : String) : Option Int :=
  match (pyStrip s).data with
  | '+' :: rest => (parseDigits rest).map (fun n => (n : Int))
  | '-' :: rest => (parseDigits rest).map (fun n => -(n : Int))
  | rest => (parseDigits rest).map (fun n => (n : Int))

/-- Embedding of `_parse_int`. -/
def _parse_int (raw : String) : Except PErr Int :=
  match pyIntOfString raw with
  | some n => .ok n
  | none => .error (.argumentError s!"`{raw}` is not a valid integer number")

/-- Whether a char list is a valid digit run. -/
def digitsOk (cs : List Char) : Bool := (parseDigits cs).isSome

/-- Splits a list at the first char satisfying `p`, dropping that char. -/
def splitAtChar (p : Char → Bool) : List Char → Option (List Char × List Char)
  | [] => none
  | c :: rest =>
    if p c then some ([], rest)
    else (splitAtChar p rest).map (fun pr => (c :: pr.1, pr.2))

/-- Mantissa acceptance for Python `float`: digits, with an optional decimal
point, at least one digit overall. -/
def mantissaOk (cs : List Char) : Bool :=
  match splitAtChar (· = '.') cs with
  | none => digitsOk cs
  | some (ip, fp) =>
    (ip.isEmpty || digitsOk ip) && (fp.isEmpty || digitsOk fp)
      && !(ip.isEmpty && fp.isEmpty)

/-- Exponent acceptance for Python `float`: optional sign then digits. -/
def exponentOk (cs : List Char) : Bool :=
  match cs with
  | '+' :: rest => digitsOk rest
  | '-' :: rest => digitsOk rest
  | rest => digitsOk rest

/-- Acceptance of an unsigned Python float literal: the special words, or a
mantissa with an optional exponent. -/
def unsignedFloatOk (cs : List Char) : Bool :=
  let low := cs.map Char.toLower
  if low = "inf".data ∨ low = "infinity".data ∨ low = "nan".data then true
  else
    match splitAtChar (fun c => c = 'e' ∨ c = 'E') cs with
    | none => mantissaOk cs
    | some (m, e) => mantissaOk m && exponentOk e

/-- Python `float(raw)` acceptance: strip whitespace, optional sign, then an
unsigned float literal. -/
def pyFloatOk (s : String) : Bool :=
  match (pyStrip s).data with
  | '+' :: rest => unsignedFloatOk rest
  | '-' :: rest => unsignedFloatOk rest
  | rest => unsignedFloatOk rest

/-- Embedding of `_parse_float`; the accepted value keeps its raw text. -/
def _parse_float (raw : String) : Except PErr Value :=
  if pyFloatOk raw then .ok (.vFloat raw)
  else .error (.argumentError s!"`{raw}` is not a valid number")

mutual

/-- Embedding of `parse_value`.  An unsupported top-level type (here
`NoneType`) raises `TypeError`, modelled as a crash. -/
def parse_value (value : String) (typ : TypeDesc) : Except PErr Value :=
  match typ with
  | .strT => .ok (.vStr value)
  | .anyT => .ok (.vStr value)
  | .literalT opts =>
    match _parse_literal value opts with
    | .ok v => .ok (.vStr v)
    | .error e => .error e
  | .boolT =>
    match _parse_bool value with
    | .ok b => .ok (.vBool b)
    | .error e => .error e
  | .intT =>
    match _parse_int value with
    | .ok n => .ok (.vInt n)
    | .error e => .error e
  | .floatT => _parse_float value
  | .noneT => .error (.crash "TypeError: NoneType is not a supported type")
  | .unionT ms => parseUnionMembers value (TypeDesc.unionT ms) ms

/-- The union-member loop of `parse_value`: a `NoneType` member is skipped; a
member failure with `ArgumentError` moves on to the next member; exhausting
the members raises the aggregate `ArgumentError` naming the whole union
type. -/
def parseUnionMembers (value : String) (whole : TypeDesc) :
    List TypeDesc → Except PErr Value
  | [] =>
    .error (.argumentError
      s!"`{value}` is not a valid value for `{whole.render}`")
  | t :: rest =>
    match t with
    | .noneT => parseUnionMembers value whole rest
    | _ =>
      match parse_value value t with
      | .ok v => .ok v
      | .error (.argumentError _) => parseUnionMembers value whole rest
      | .error e => .error e

end

/-- Embedding of the `Parameter` dataclass.  `default_value` distinguishes
"no default" (`none`, the `NO_DEFAULT` sentinel) from "default is null"
(`some .vNone`).  The interactive-prompt text is irrelevant to parsing and
omitted. -/
structure Parameter where
  name : String
  shorthand : Option String
  python_name : String
  type : TypeDesc
  is_flag : Bool
  is_variadic : Bool
  default_value : Option Value

/-- The `parameters_by_name` dictionary of `Parser.__init__`: flag parameters
keyed by name, later entries overriding earlier ones. -/
def parametersByName (ps : List Parameter) (n : String) : Option Parameter :=
  ps.foldl
    (fun acc p =>
      if p.is_flag then (if p.name = n then some p else acc) else acc)
    none

/-- The `parameters_by_shorthand` dictionary of `Parser.__init__`. -/
def parametersByShorthand (ps : List Parameter) (s : String) : Option Parameter :=
  ps.foldl
    (fun acc p =>
      if p.is_flag then
        match p.shorthand with
        | some sh => if sh = s then some p else acc
        | none => acc
      else acc)
    none

/-- The `positional_parameters` list of `Parser.__init__`. -/
def positionalParameters (ps : List Parameter) : List Parameter :=
  ps.filter (fun p => !p.is_flag)

/-- Python `dict.setdefault(k, []).append(v)` on an insertion-ordered
association list. -/
def dictAppend (d : List (String × List String)) (k v : String) :
    List (String × List String) :=
  match d with
  | [] => [(k, [v])]
  | (k2, vs) :: rest =>
    if k2 = k then (k2, vs ++ [v]) :: rest else (k2, vs) :: dictAppend rest k v

/-- Python `k in d` / `d[k]` lookup. -/
def dictFind (d : List (String × List String)) (k : String) :
    Option (List String) :=
  match d with
  | [] => none
  | (k2, vs) :: rest => if k2 = k then some vs else dictFind rest k

/-- Removal part of Python `dict.pop(k)`. -/
def dictRemove (d : List (String × List String)) (k : String) :
    List (String × List String) :=
  match d with
  | [] => []
  | (k2, vs) :: rest =>
    if k2 = k then rest else (k2, vs) :: dictRemove rest k

/-- The mutable state of the `Parser` class. -/
structure ParserState where
  parameters : List Parameter
  assigned_parameters : List (String × List String)
  current_parameter : Option String
  allow_flags : Bool
  rest : List String
  errors : List String
  next_positional_parameter_index : Nat

/-- The state built by `Parser.__init__`. -/
def initParser (ps : List Parameter) : ParserState :=
  { parameters := ps
    assigned_parameters := []
    current_parameter := none
    allow_flags := true
    rest := []
    errors := []
    next_positional_parameter_index := 0 }

/-- The body of the loop in `Parser._feed_flags` over all but the last
clustered flag: such a flag must resolve to a declared boolean, in which case
it is assigned the literal `"true"`, otherwise a missing-value error is
recorded. -/
def feedClusterFlag (lookup : String → Option Parameter) (st : ParserState)
    (bool_flag : String) : ParserState :=
  let is_bool_parameter :=
    match lookup bool_flag with
    | none => false
    | some param => param.type.isBool
  if !is_bool_parameter then
    { st with errors := st.errors ++ [s!"Missing value for `-{bool_flag}`"] }
  else
    { st with assigned_parameters :=
        dictAppend st.assigned_parameters bool_flag "true" }

/-- Embedding of `Parser._feed_flags`.  The two `assert` statements are
modelled as crashes. -/
def feedFlags (p : ParserState) (flag_names : List String)
    (flag_value : Option String) (use_shorthands : Bool) :
    Except PErr ParserState :=
  if flag_names.isEmpty then
    .error (.crash "AssertionError: no flag names")
  else if p.current_parameter.isSome then
    .error (.crash "AssertionError: parsing a flag while one is looking for a value")
  else
    let lookup := fun (n : String) =>
      if use_shorthands then parametersByShorthand p.parameters n
      else parametersByName p.parameters n
    let st := flag_names.dropLast.foldl (feedClusterFlag lookup) p
    match flag_names.getLast? with
    | none => .error (.crash "AssertionError: no flag names")
    | some last_flag =>
      match flag_value with
      | some v =>
        .ok { st with assigned_parameters :=
                dictAppend st.assigned_parameters last_flag v }
      | none =>
        match lookup last_flag with
        | some param =>
          if param.type.isBool then
            .ok { st with assigned_parameters :=
                    dictAppend st.assigned_parameters last_flag "true" }
          else
            .ok { st with current_parameter := some last_flag }
        | none => .ok { st with current_parameter := some last_flag }

/-- Character class of `PATTERN_LONG_FLAG` names: `[a-zA-Z0-9-]`. -/
def isLongNameChar (c : Char) : Bool := c.isAlpha || c.isDigit || c = '-'

/-- Character class of `PATTERN_SHORT_FLAG` names: `[a-zA-Z-]`. -/
def isShortNameChar (c : Char) : Bool := c.isAlpha || c = '-'

/-- The newline character, which `.` in the flag regexes cannot match. -/
def chr10 : Char := Char.ofNat 10

/-- Shared body of the two flag regexes after the leading dashes: a non-empty
run of name characters, optionally followed by `=` and a value.  The value is
matched by `(.*)`, and `.` does not match a newline, so a token whose inline
value contains a newline is not a flag match.  Returns the name characters
and the optional value. -/
def matchFlagBody (good : Char → Bool) (cs : List Char) :
    Option (List Char × Option String) :=
  let name := cs.takeWhile good
  let rest := cs.dropWhile good
  if name.isEmpty then none
  else
    match rest with
    | [] => some (name, none)
    | c :: v =>
      if c = '=' ∧ ∀ c2 ∈ v, c2 ≠ chr10 then some (name, some (String.mk v))
      else none

/-- Fullmatch of `PATTERN_LONG_FLAG`, `--([a-zA-Z0-9-]+)(=(.*))?`. -/
def matchLongFlag (s : String) : Option (String × Option String) :=
  match s.data with
  | c1 :: c2 :: cs =>
    if c1 = '-' ∧ c2 = '-' then
      (matchFlagBody isLongNameChar cs).map (fun pr => (String.mk pr.1, pr.2))
    else none
  | _ => none

/-- Fullmatch of `PATTERN_SHORT_FLAG`, `-([a-zA-Z-]+)(=(.*))?`; the name
characters stay separate because `feed_one` treats them as clustered
shorthands. -/
def matchShortFlag (s : String) : Option (List Char × Option String) :=
  match s.data with
  | c1 :: cs => if c1 = '-' then matchFlagBody isShortNameChar cs else none
  | _ => none

/-- The positional branch of `Parser.feed_one`: assign the token to the next
positional parameter, or append it to `rest` when the cursor has run past the
declared positionals. -/
def feedPositional (p : ParserState) (value : String) : ParserState :=
  match (positionalParameters p.parameters)[p.next_positional_parameter_index]? with
  | none => { p with rest := p.rest ++ [value] }
  | some param =>
    let p2 :=
      { p with assigned_parameters :=
          dictAppend p.assigned_parameters param.name value }
    if param.is_variadic then p2
    else
      { p2 with next_positional_parameter_index :=
          p2.next_positional_parameter_index + 1 }

/-- Embedding of `Parser.feed_one`. -/
def feed_one (p : ParserState) (value : String) : Except PErr ParserState :=
  match p.current_parameter with
  | some cur =>
    .ok { p with
            assigned_parameters := dictAppend p.assigned_parameters cur value
            current_parameter := none }
  | none =>
    if p.allow_flags then
      if value = "--" then .ok { p with allow_flags := false }
      else
        match matchLongFlag value with
        | some (name, v) => feedFlags p [name] v false
        | none =>
          match matchShortFlag value with
          | some (letters, v) =>
            feedFlags p (letters.map (fun c => String.mk [c])) v true
          | none => .ok (feedPositional p value)
    else .ok (feedPositional p value)

/-- Embedding of `Parser.feed_many`. -/
def feed_many (p : ParserState) (values : List String) :
    Except PErr ParserState :=
  match values with
  | [] => .ok p
  | v :: rest =>
    match feed_one p v with
    | .ok p2 => feed_many p2 rest
    | .error e => .error e

theorem feed_many_cons_ok (p p2 : ParserState) (t : String) (ts : List String)
    (h : feed_one p t = .ok p2) : feed_many p (t :: ts) = feed_many p2 ts := by
  show (match feed_one p t with
    | .ok p2 => feed_many p2 ts
    | .error e => .error e) = feed_many p2 ts
  rw [h]

/-- The per-parameter coercion loop of `Parser.finish`: coerce each raw
value, appending one error per `ArgumentError` and keeping the successes in
order; any other exception propagates. -/
def finishCoerce (name : String) (typ : TypeDesc) (raws : List String)
    (errors : List String) : Except PErr (List Value × List String) :=
  match raws with
  | [] => .ok ([], errors)
  | r :: rest =>
    match parse_value r typ with
    | .ok v =>
      match finishCoerce name typ rest errors with
      | .ok (vs, errs) => .ok (v :: vs, errs)
      | .error e => .error e
    | .error (.argumentError m) =>
      finishCoerce name typ rest (errors ++ [s!"Invalid value for `{name}`: {m}"])
    | .error e => .error e

/-- Pairs each element with its position starting at `i`, modelling the
iteration order and the identity keys of the Python result dictionary. -/
def enumIdx {α : Type} (i : Nat) : List α → List (Nat × α)
  | [] => []
  | a :: rest => (i, a) :: enumIdx (i + 1) rest

/-- One iteration of the parameter loop of `Parser.finish`, for the
parameter at position `i` of the declared list: impute the default, record a
missing-value error (unless missing values are allowed), reject multiple
values for a non-variadic parameter, or coerce the assigned raw values and
record the resulting binding.  Returns the updated assigned dictionary,
error list and result dictionary. -/
def finishStep (i : Nat) (param : Parameter)
    (assigned : List (String × List String)) (errors : List String)
    (result : List (Nat × Value)) (allow_missing : Bool) :
    Except PErr
      (List (String × List String) × List String × List (Nat × Value)) :=
  match dictFind assigned param.name with
  | none =>
    match param.default_value with
    | some d => .ok (assigned, errors, result ++ [(i, d)])
    | none =>
      if allow_missing then .ok (assigned, errors, result)
      else .ok (assigned, errors ++ [s!"Missing value for `{param.name}`"], result)
  | some raw_assigned =>
    let assigned2 := dictRemove assigned param.name
    if !param.is_variadic ∧ raw_assigned.length > 1 then
      .ok (assigned2, errors ++ [s!"Too many values for `{param.name}`"], result)
    else
      match finishCoerce param.name param.type raw_assigned errors with
      | .error e => .error e
      | .ok (values, errors2) =>
        if param.is_variadic then
          .ok (assigned2, errors2, result ++ [(i, .vTuple values)])
        else
          match values with
          | v :: _ => .ok (assigned2, errors2, result ++ [(i, v)])
          | [] => .ok (assigned2, errors2, result)

/-- The main loop of `Parser.finish` over the declared parameters.  The
result dictionary is keyed by the position of the parameter in the declared
list, modelling the identity-hashed `Parameter` keys of the Python dict. -/
def finishLoop (params : List (Nat × Parameter))
    (assigned : List (String × List String)) (errors : List String)
    (result : List (Nat × Value)) (allow_missing : Bool) :
    Except PErr (List (Nat × Value) × List (String × List String) × List String) :=
  match params with
  | [] => .ok (result, assigned, errors)
  | (i, param) :: rest =>
    match finishStep i param assigned errors result allow_missing with
    | .error e => .error e
    | .ok (assigned2, errors2, result2) =>
      finishLoop rest assigned2 errors2 result2 allow_missing

/-- The trailing loop of `Parser.finish` over leftover assigned values; note
that `rest` (the positional overflow) is not consulted there. -/
def leftoverErrors : List (String × List String) → List String →
    Except PErr (List String)
  | [], errors => .ok errors
  | (_, v :: _) :: rest, errors =>
    leftoverErrors rest (errors ++ [s!"Unexpected value `{v}`"])
  | (_, []) :: _, _ => .error (.crash "IndexError: empty value list")

/-- Embedding of `Parser.finish`, returning the result dictionary (keyed by
parameter position) together with the final accumulated error list. -/
def finish (p : ParserState) (allow_missing_arguments : Bool) :
    Except PErr (List (Nat × Value) × List String) :=
  let errors :=
    match p.current_parameter with
    | some cur => p.errors ++ [s!"Missing value for `{cur}`"]
    | none => p.errors
  match finishLoop (enumIdx 0 p.parameters) p.assigned_parameters errors []
      allow_missing_arguments with
  | .error e => .error e
  | .ok (result, leftover, errors2) =>
    match leftoverErrors leftover errors2 with
    | .error e => .error e
    | .ok errors3 => .ok (result, errors3)

/-- Lookup in the position-keyed result dictionary. -/
def lookupIdx (xs : List (Nat × Value)) (i : Nat) : Option Value :=
  match xs with
  | [] => none
  | (j, v) :: rest => if j = i then some v else lookupIdx rest i

/-- Outcome of the non-interactive `parse_function_parameters`: the messages
emitted through `revel.error`, and either the `(args, kwargs)` pair for the
target call or the raised exception. -/
structure PFPOutcome where
  printed : List String
  result : Except PErr (List Value × List (String × Value))

/-- The final loop of `parse_function_parameters`, splitting the resolved
values into positional and keyword arguments; a missing assignment is a
`KeyError`, modelled as a crash. -/
def buildCallArgs (params : List (Nat × Parameter))
    (assignments : List (Nat × Value)) (by_position : List Value)
    (by_name : List (String × Value)) :
    Except PErr (List Value × List (String × Value)) :=
  match params with
  | [] => .ok (by_position, by_name)
  | (i, param) :: rest =>
    match lookupIdx assignments i with
    | none => .error (.crash "KeyError: missing assignment")
    | some v =>
      if param.is_flag then
        buildCallArgs rest assignments by_position (by_name ++ [(param.python_name, v)])
      else
        buildCallArgs rest assignments (by_position ++ [v]) by_name

/-- Feeding all tokens and then finishing, the composition
`parser.feed_many(raw_args); parser.finish(...)` every caller performs. -/
def runParse (ps : List Parameter) (ts : List String) (am : Bool) :
    Except PErr (List (Nat × Value) × List String) :=
  match feed_many (initParser ps) ts with
  | .ok p => finish p am
  | .error e => .error e

/-- The logic of `parse_function_parameters` after `finish` has produced the
assignments and the error list: print every error, raise on a non-empty
error list, raise on missing parameters, else split into call arguments. -/
def pfpAfterFinish (params : List Parameter)
    (assignments : List (Nat × Value)) (errors : List String) : PFPOutcome :=
  if errors.isEmpty then
    let missing := (enumIdx 0 params).filter
      (fun pr => (lookupIdx assignments pr.1).isNone)
    if missing.isEmpty then
      { printed := errors
        result := buildCallArgs (enumIdx 0 params) assignments [] [] }
    else
      match commaSeparatedList (missing.map (fun pr => pr.2.name))
          (some "and") (some "`") with
      | none => { printed := errors, result := .error (.crash "AssertionError: empty list") }
      | some s =>
        { printed := errors
          result := .error (.argumentError ("Missing arguments: " ++ s)) }
  else
    { printed := errors
      result := .error (.argumentError "Invalid arguments") }

/-- Embedding of the non-interactive path (`interactive=False`) of
`parse_function_parameters`; the interactive prompting branch performs
terminal input and is out of scope, and is unreachable non-interactively
anyway once the error check has passed. -/
def parse_function_parameters (params : List Parameter)
    (raw_args : List String) : PFPOutcome :=
  match runParse params raw_args false with
  | .error e => { printed := [], result := .error e }
  | .ok (assignments, errors) => pfpAfterFinish params assignments errors

/-! ### Theorems -/

/-- C1: with no declared parameters, the token `x` lands in the overflow list
`rest`, yet `finish` returns an empty error list: overflow tokens never
become `UnexpectedValue` errors, because `finish` only inspects
`assigned_parameters` and never reads `rest`. -/
theorem finish_drops_overflow_tokens :
    ∃ p, feed_many (initParser []) ["x"] = .ok p ∧ p.rest = ["x"] ∧
      finish p false = .ok ([], []) :=
  ⟨{ initParser [] with rest := ["x"] }, rfl, rfl, rfl⟩

/-- C2, counterexample: with one required positional parameter `arg` and no
tokens, the accumulated error list is `["Missing value for `arg`"]` and each
entry is printed, but the exception surfaced to the caller is the single
message `Invalid arguments`, which does not carry (or even contain) the
accumulated error. -/
theorem resolution_error_single_message_cex :
    parse_function_parameters [⟨"arg", none, "arg", .strT, false, false, none⟩] [] =
      { printed := ["Missing value for `arg`"]
        result := .error (.argumentError "Invalid arguments") } ∧
    strIn "Missing value for `arg`" "Invalid arguments" = false :=
  ⟨rfl, by decide⟩

/-- C2, amended: when resolution finishes with a non-empty accumulated error
list and interactive is false, `parse_function_parameters` fails; the
accumulated errors are each emitted through the error-printing channel, one
string per problem, but the exception surfaced to the caller carries only the
single message `Invalid arguments`. -/
theorem resolution_errors_printed_not_carried (params : List Parameter)
    (raw_args : List String) (assignments : List (Nat × Value))
    (errors : List String)
    (hrun : runParse params raw_args false = .ok (assignments, errors))
    (hne : errors ≠ []) :
    parse_function_parameters params raw_args =
      { printed := errors
        result := .error (.argumentError "Invalid arguments") } := by
  have hemp : errors.isEmpty = false := by
    cases errors with
    | nil => exact absurd rfl hne
    | cons a l => rfl
  simp only [parse_function_parameters, hrun, pfpAfterFinish, hemp,
    Bool.false_eq_true, if_false]

/-- C2, witness for the amended theorem at a concrete input. -/
theorem resolution_errors_printed_not_carried_witness :
    parse_function_parameters [⟨"x", none, "x", .intT, true, false, none⟩]
      ["--x=a"] =
      { printed := ["Invalid value for `x`: `a` is not a valid integer number"]
        result := .error (.argumentError "Invalid arguments") } :=
  resolution_errors_printed_not_carried
    [⟨"x", none, "x", .intT, true, false, none⟩] ["--x=a"] []
    ["Invalid value for `x`: `a` is not a valid integer number"]
    (by rfl) (by decide)

/-- Whether the descriptor is `NoneType`, modelling `option is type(None)`. -/
def TypeDesc.isNoneT : TypeDesc → Bool
  | .noneT => true
  | _ => false

/-- Whether the union-member loop of `parse_value` passes over this member
for this raw value: it is the `NoneType` member, or coercing to it fails
with an `ArgumentError`. -/
def unionSkips (value : String) (u : TypeDesc) : Bool :=
  u.isNoneT ||
    match parse_value value u with
    | .error (.argumentError _) => true
    | _ => false

theorem unionSkips_cases {value : String} {u : TypeDesc}
    (h : unionSkips value u = true) :
    u.isNoneT = true ∨ ∃ m, parse_value value u = .error (.argumentError m) := by
  unfold unionSkips at h
  cases hni : u.isNoneT with
  | true => exact Or.inl rfl
  | false =>
    rw [hni, Bool.false_or] at h
    cases hpv : parse_value value u with
    | ok v => rw [hpv] at h; simp at h
    | error e =>
      cases e with
      | argumentError m => exact Or.inr ⟨m, by first | exact hpv | rfl⟩
      | crash m => rw [hpv] at h; simp at h

theorem parseUnionMembers_skip (value : String) (whole : TypeDesc)
    (u : TypeDesc) (rest : List TypeDesc)
    (h : unionSkips value u = true) :
    parseUnionMembers value whole (u :: rest) =
      parseUnionMembers value whole rest := by
  rcases unionSkips_cases h with hn | ⟨m, hm⟩
  · cases u <;> simp_all [TypeDesc.isNoneT, parseUnionMembers]
  · cases u <;> simp_all [parseUnionMembers]

theorem parseUnionMembers_all_skip (value : String) (whole : TypeDesc)
    (ms : List TypeDesc) (h : ∀ u ∈ ms, unionSkips value u = true) :
    parseUnionMembers value whole ms =
      .error (.argumentError
        s!"`{value}` is not a valid value for `{whole.render}`") := by
  induction ms with
  | nil => rfl
  | cons u rest ih =>
    rw [parseUnionMembers_skip value whole u rest (h u (by simp))]
    exact ih (fun x hx => h x (by simp [hx]))

/-- C5: union (and optional) coercion tries each non-`NoneType` member in
declared order and returns the result of the first member that succeeds; if
every member is passed over (it is `NoneType` or fails with a coercion
error), the result is a single `ArgumentError` naming the whole union type,
with the member-specific errors discarded. -/
theorem parse_value_union_first_success_aggregate_error :
    (∀ (value : String) (pre post : List TypeDesc) (t : TypeDesc) (v : Value),
      (∀ u ∈ pre, unionSkips value u = true) →
      t.isNoneT = false →
      parse_value value t = .ok v →
      parse_value value (.unionT (pre ++ t :: post)) = .ok v) ∧
    (∀ (value : String) (ms : List TypeDesc),
      (∀ u ∈ ms, unionSkips value u = true) →
      parse_value value (.unionT ms) =
        .error (.argumentError
          s!"`{value}` is not a valid value for `{TypeDesc.render (.unionT ms)}`")) := by
  constructor
  · intro value pre post t v hpre ht hok
    show parseUnionMembers value (.unionT (pre ++ t :: post)) (pre ++ t :: post) = .ok v
    generalize TypeDesc.unionT (pre ++ t :: post) = whole
    induction pre with
    | nil =>
      rw [List.nil_append]
      cases t <;> simp_all [TypeDesc.isNoneT, parseUnionMembers]
    | cons u rest ih =>
      rw [List.cons_append,
        parseUnionMembers_skip value whole u _ (hpre u (by simp))]
      exact ih (fun x hx => hpre x (by simp [hx]))
  · intro value ms h
    exact parseUnionMembers_all_skip value (.unionT ms) ms h

/-- C5, witness: `int | str` on a non-numeric string falls through to the
`str` member, and `None | int | bool` on an unparsable string raises the
aggregate error naming the whole union. -/
theorem parse_value_union_witness :
    parse_value "abc" (.unionT [.intT, .strT]) = .ok (.vStr "abc") ∧
    parse_value "abc" (.unionT [.noneT, .intT, .boolT]) =
      .error (.argumentError
        "`abc` is not a valid value for `None | int | bool`") := by
  constructor
  · exact parse_value_union_first_success_aggregate_error.1 "abc" [.intT] []
      .strT (.vStr "abc")
      (by intro u hu; rw [List.mem_singleton] at hu; subst hu; rfl)
      rfl rfl
  · exact parse_value_union_first_success_aggregate_error.2 "abc"
      [.noneT, .intT, .boolT]
      (by intro u hu; fin_cases hu <;> rfl)

theorem takeWhile_append_of_all {α : Type} (p : α → Bool) (l1 l2 : List α)
    (h : ∀ a ∈ l1, p a = true) :
    (l1 ++ l2).takeWhile p = l1 ++ l2.takeWhile p := by
  induction l1 with
  | nil => rfl
  | cons a l ih =>
    have hih := ih (fun x hx => h x (by simp [hx]))
    simp [List.takeWhile_cons, h a (by simp), hih]

theorem dropWhile_append_of_all {α : Type} (p : α → Bool) (l1 l2 : List α)
    (h : ∀ a ∈ l1, p a = true) :
    (l1 ++ l2).dropWhile p = l2.dropWhile p := by
  induction l1 with
  | nil => rfl
  | cons a l ih =>
    have hih := ih (fun x hx => h x (by simp [hx]))
    simp [List.dropWhile_cons, h a (by simp), hih]

theorem string_mk_data (s : String) : String.mk s.data = s := rfl

theorem data_eq_of_eq {s t : String} (h : s = t) : s.data = t.data := by rw [h]

theorem dd_append_data (name : String) :
    ("--" ++ name).data = '-' :: '-' :: name.data := by
  have : ("--" ++ name).data = "--".data ++ name.data := String.data_append ..
  simpa using this

theorem dd_value_append_data (name v : String) :
    ("--" ++ name ++ "=" ++ v).data =
      '-' :: '-' :: (name.data ++ '=' :: v.data) := by
  have h1 : ("--" ++ name ++ "=" ++ v).data =
      (("--" ++ name).data ++ "=".data) ++ v.data := by
    rw [String.data_append, String.data_append]
  rw [h1, dd_append_data]
  simp

theorem list_isEmpty_false_of_ne {α : Type} {l : List α} (hne : l ≠ []) :
    l.isEmpty = false := by
  cases l with
  | nil => exact absurd rfl hne
  | cons a t => rfl

theorem matchFlagBody_all (good : Char → Bool) (l : List Char) (hne : l ≠ [])
    (h : ∀ c ∈ l, good c = true) :
    matchFlagBody good l = some (l, none) := by
  unfold matchFlagBody
  have ht : l.takeWhile good = l := by
    simpa using takeWhile_append_of_all good l [] h
  have hd : l.dropWhile good = [] := by
    simpa using dropWhile_append_of_all good l [] h
  simp [ht, hd, list_isEmpty_false_of_ne hne]

theorem matchFlagBody_value (good : Char → Bool) (l v : List Char)
    (hne : l ≠ []) (h : ∀ c ∈ l, good c = true) (hbad : good '=' = false)
    (hvnl : ∀ c2 ∈ v, c2 ≠ chr10) :
    matchFlagBody good (l ++ '=' :: v) = some (l, some (String.mk v)) := by
  unfold matchFlagBody
  have ht : (l ++ '=' :: v).takeWhile good = l := by
    rw [takeWhile_append_of_all good l _ h, List.takeWhile_cons, hbad]
    simp
  have hd : (l ++ '=' :: v).dropWhile good = '=' :: v := by
    rw [dropWhile_append_of_all good l _ h, List.dropWhile_cons, hbad]
    simp
  simp only [ht, hd, list_isEmpty_false_of_ne hne, Bool.false_eq_true,
    if_false]
  rw [if_pos ⟨trivial, hvnl⟩]

theorem matchLongFlag_plain (name : String) (hne : name.data ≠ [])
    (hchars : ∀ c ∈ name.data, isLongNameChar c = true) :
    matchLongFlag ("--" ++ name) = some (name, none) := by
  unfold matchLongFlag
  rw [dd_append_data]
  simp [matchFlagBody_all isLongNameChar name.data hne hchars, string_mk_data]

theorem matchLongFlag_value (name v : String) (hne : name.data ≠ [])
    (hchars : ∀ c ∈ name.data, isLongNameChar c = true)
    (hvnl : ∀ c2 ∈ v.data, c2 ≠ chr10) :
    matchLongFlag ("--" ++ name ++ "=" ++ v) = some (name, some v) := by
  unfold matchLongFlag
  rw [dd_value_append_data]
  simp [matchFlagBody_value isLongNameChar name.data v.data hne hchars
    (by decide) hvnl, string_mk_data]

theorem long_plain_ne_ddash (name : String) (hne : name.data ≠ []) :
    ("--" ++ name) = "--" → False := by
  intro h
  have := data_eq_of_eq h
  rw [dd_append_data] at this
  have : name.data = [] := by
    have h2 : '-' :: '-' :: name.data = '-' :: '-' :: ([] : List Char) := this
    simpa using h2
  exact hne this

theorem long_value_ne_ddash (name v : String) :
    ("--" ++ name ++ "=" ++ v) = "--" → False := by
  intro h
  have := data_eq_of_eq h
  rw [dd_value_append_data] at this
  have h2 : name.data ++ '=' :: v.data = ([] : List Char) := by
    simpa using this
  simp at h2

theorem feedFlags_single_inline (p : ParserState) (n v : String)
    (us : Bool) (hp2 : p.current_parameter = none) :
    feedFlags p [n] (some v) us =
      .ok { p with assigned_parameters :=
              dictAppend p.assigned_parameters n v } := by
  unfold feedFlags
  rw [hp2]
  simp [hp2]

theorem feedFlags_single_noval_bool (p : ParserState) (n : String)
    (us : Bool) (param : Parameter) (hp2 : p.current_parameter = none)
    (hlook : (if us then parametersByShorthand p.parameters n
              else parametersByName p.parameters n) = some param)
    (hbool : param.type.isBool = true) :
    feedFlags p [n] none us =
      .ok { p with assigned_parameters :=
              dictAppend p.assigned_parameters n "true" } := by
  unfold feedFlags
  rw [hp2]
  simp only [List.isEmpty_cons, Bool.false_eq_true, if_false, Option.isSome_none,
    List.dropLast_single, List.foldl_nil, List.getLast?_singleton]
  rw [hlook]
  simp [hbool, hp2]

theorem feedFlags_single_noval_await (p : ParserState) (n : String)
    (us : Bool) (hp2 : p.current_parameter = none)
    (hlook : ∀ q, (if us then parametersByShorthand p.parameters n
              else parametersByName p.parameters n) = some q →
              q.type.isBool = false) :
    feedFlags p [n] none us =
      .ok { p with current_parameter := some n } := by
  unfold feedFlags
  rw [hp2]
  simp only [List.isEmpty_cons, Bool.false_eq_true, if_false, Option.isSome_none,
    List.dropLast_single, List.foldl_nil, List.getLast?_singleton]
  cases h : (if us then parametersByShorthand p.parameters n
      else parametersByName p.parameters n) with
  | none => rfl
  | some q => simp [hlook q h, hp2]

theorem feed_one_flags_path (p : ParserState) (value : String)
    (hp1 : p.allow_flags = true) (hp2 : p.current_parameter = none)
    (hdd : value ≠ "--") :
    feed_one p value =
      (match matchLongFlag value with
       | some pr => feedFlags p [pr.1] pr.2 false
       | none =>
         match matchShortFlag value with
         | some pr => feedFlags p (pr.1.map (fun c => String.mk [c])) pr.2 true
         | none => .ok (feedPositional p value)) := by
  unfold feed_one
  rw [hp2, hp1]
  simp only [if_true, if_neg hdd]
  cases matchLongFlag value with
  | some pr => rfl
  | none =>
    cases matchShortFlag value with
    | some pr => rfl
    | none => rfl

theorem parse_bool_ok_no_newline (v : String) (b : Bool)
    (h : _parse_bool v = .ok b) : ∀ c2 ∈ v.data, c2 ≠ chr10 := by
  have hword : pyLower v = "true" ∨ pyLower v = "t" ∨ pyLower v = "yes" ∨
      pyLower v = "y" ∨ pyLower v = "1" ∨ pyLower v = "false" ∨
      pyLower v = "f" ∨ pyLower v = "no" ∨ pyLower v = "n" ∨
      pyLower v = "0" := by
    unfold _parse_bool at h
    dsimp only at h
    split at h
    · rename_i hcond
      tauto
    · split at h
      · rename_i hcond
        tauto
      · cases h
  intro c2 hc2 he
  subst he
  have hmap : Char.toLower chr10 ∈ v.data.map Char.toLower :=
    List.mem_map_of_mem Char.toLower hc2
  have hlow : Char.toLower chr10 = chr10 := by decide
  rw [hlow] at hmap
  have hdata : v.data.map Char.toLower = (pyLower v).data := rfl
  rw [hdata] at hmap
  rcases hword with h1|h1|h1|h1|h1|h1|h1|h1|h1|h1 <;>
    rw [h1] at hmap <;> exact absurd hmap (by decide)

/-- C6: for a declared non-variadic boolean flag parameter with a well-formed
long name, giving the long flag alone appends the literal `"true"` for it and
leaves no parameter awaiting a value (the next token is not consumed), giving
it with an inline value appends that raw value; end to end on the
single-parameter list this binds the parameter to `true` for presence alone,
and to the coerced boolean of the inline value, so `--name=false` binds
`false`. -/
theorem bool_flag_presence_true_value_coerced
    (param : Parameter) (v : String) (b : Bool)
    (htype : param.type = .boolT) (hflag : param.is_flag = true)
    (hnvar : param.is_variadic = false)
    (hne : param.name.data ≠ [])
    (hchars : ∀ c ∈ param.name.data, isLongNameChar c = true)
    (hv : _parse_bool v = .ok b)
    (p : ParserState)
    (hp1 : p.allow_flags = true) (hp2 : p.current_parameter = none)
    (hlook : parametersByName p.parameters param.name = some param) :
    feed_one p ("--" ++ param.name) =
      .ok { p with assigned_parameters :=
              dictAppend p.assigned_parameters param.name "true" } ∧
    feed_one p ("--" ++ param.name ++ "=" ++ v) =
      .ok { p with assigned_parameters :=
              dictAppend p.assigned_parameters param.name v } ∧
    runParse [param] ["--" ++ param.name] false =
      .ok ([(0, .vBool true)], []) ∧
    runParse [param] ["--" ++ param.name ++ "=" ++ v] false =
      .ok ([(0, .vBool b)], []) := by
  have hbool : param.type.isBool = true := by rw [htype]; rfl
  have hgen : ∀ q : ParserState, q.allow_flags = true →
      q.current_parameter = none →
      parametersByName q.parameters param.name = some param →
      feed_one q ("--" ++ param.name) =
        .ok { q with assigned_parameters :=
                dictAppend q.assigned_parameters param.name "true" } := by
    intro q hq1 hq2 hqlook
    rw [feed_one_flags_path q _ hq1 hq2 (fun h => long_plain_ne_ddash param.name hne h),
      matchLongFlag_plain param.name hne hchars]
    show feedFlags q [param.name] none false = _
    exact feedFlags_single_noval_bool q param.name false param hq2
      (by simpa using hqlook) hbool
  have hgenv : ∀ q : ParserState, q.allow_flags = true →
      q.current_parameter = none →
      feed_one q ("--" ++ param.name ++ "=" ++ v) =
        .ok { q with assigned_parameters :=
                dictAppend q.assigned_parameters param.name v } := by
    intro q hq1 hq2
    rw [feed_one_flags_path q _ hq1 hq2 (fun h => long_value_ne_ddash param.name v h),
      matchLongFlag_value param.name v hne hchars
        (parse_bool_ok_no_newline v b hv)]
    show feedFlags q [param.name] (some v) false = _
    exact feedFlags_single_inline q param.name v false hq2
  have hlook0 : parametersByName [param] param.name = some param := by
    simp [parametersByName, hflag]
  have hpv : parse_value "true" param.type = .ok (.vBool true) := by
    rw [htype]; rfl
  have hpvv : parse_value v param.type = .ok (.vBool b) := by
    rw [htype]
    show (match _parse_bool v with
      | .ok b2 => Except.ok (Value.vBool b2)
      | .error e => .error e) = _
    rw [hv]
  refine ⟨hgen p hp1 hp2 hlook, hgenv p hp1 hp2, ?_, ?_⟩
  · unfold runParse feed_many
    rw [hgen (initParser [param]) rfl rfl hlook0]
    show finish { initParser [param] with
      assigned_parameters := dictAppend [] param.name "true" } false = _
    simp [finish, finishLoop, finishStep, finishCoerce, leftoverErrors,
      dictFind, dictRemove, dictAppend, initParser, enumIdx, hpv, hnvar]
  · unfold runParse feed_many
    rw [hgenv (initParser [param]) rfl rfl]
    show finish { initParser [param] with
      assigned_parameters := dictAppend [] param.name v } false = _
    simp [finish, finishLoop, finishStep, finishCoerce, leftoverErrors,
      dictFind, dictRemove, dictAppend, initParser, enumIdx, hpvv, hnvar]

/-- C6, witness: a `--verbose` boolean flag on its own binds `true`; with the
inline value `false` it binds `false`. -/
theorem bool_flag_presence_witness :
    feed_one (initParser [⟨"verbose", none, "verbose", .boolT, true, false, none⟩])
        "--verbose" =
      .ok { initParser [⟨"verbose", none, "verbose", .boolT, true, false, none⟩] with
              assigned_parameters := [("verbose", ["true"])] } ∧
    runParse [⟨"verbose", none, "verbose", .boolT, true, false, none⟩]
        ["--verbose"] false = .ok ([(0, .vBool true)], []) ∧
    runParse [⟨"verbose", none, "verbose", .boolT, true, false, none⟩]
        ["--verbose=false"] false = .ok ([(0, .vBool false)], []) := by
  have h := bool_flag_presence_true_value_coerced
    ⟨"verbose", none, "verbose", .boolT, true, false, none⟩ "false" false
    rfl rfl rfl (by decide) (by decide) rfl
    (initParser [⟨"verbose", none, "verbose", .boolT, true, false, none⟩])
    rfl rfl (by rfl)
  exact ⟨h.1, h.2.2.1, h.2.2.2⟩

theorem short_plain_data (c : Char) :
    ("-" ++ String.mk [c]).data = '-' :: [c] := by
  rw [String.data_append]
  rfl

theorem short_value_data (c : Char) (v : String) :
    ("-" ++ String.mk [c] ++ "=" ++ v).data = '-' :: c :: '=' :: v.data := by
  have h1 : ("-" ++ String.mk [c] ++ "=" ++ v).data =
      (("-" ++ String.mk [c]).data ++ "=".data) ++ v.data := by
    rw [String.data_append, String.data_append]
  rw [h1, short_plain_data]
  rfl

theorem matchLongFlag_short_plain (c : Char) (hcd : c ≠ '-') :
    matchLongFlag ("-" ++ String.mk [c]) = none := by
  unfold matchLongFlag
  rw [short_plain_data]
  simp [hcd]

theorem matchLongFlag_short_value (c : Char) (v : String) (hcd : c ≠ '-') :
    matchLongFlag ("-" ++ String.mk [c] ++ "=" ++ v) = none := by
  unfold matchLongFlag
  rw [short_value_data]
  simp [hcd]

theorem matchShortFlag_plain (c : Char) (hc : isShortNameChar c = true) :
    matchShortFlag ("-" ++ String.mk [c]) = some ([c], none) := by
  unfold matchShortFlag
  rw [short_plain_data]
  simp [matchFlagBody_all isShortNameChar [c] (by simp)
    (by intro x hx; rw [List.mem_singleton] at hx; subst hx; exact hc)]

theorem matchShortFlag_value (c : Char) (v : String)
    (hc : isShortNameChar c = true)
    (hvnl : ∀ c2 ∈ v.data, c2 ≠ chr10) :
    matchShortFlag ("-" ++ String.mk [c] ++ "=" ++ v) =
      some ([c], some v) := by
  unfold matchShortFlag
  rw [short_value_data]
  have h := matchFlagBody_value isShortNameChar [c] v.data (by simp)
    (by intro x hx; rw [List.mem_singleton] at hx; subst hx; exact hc)
    (by decide) hvnl
  simp only [List.singleton_append] at h
  simp [h, string_mk_data]

theorem short_plain_ne_ddash (c : Char) (hcd : c ≠ '-') :
    ("-" ++ String.mk [c]) = "--" → False := by
  intro h
  have h2 := data_eq_of_eq h
  rw [short_plain_data] at h2
  have : c = '-' := by simpa using h2
  exact hcd this

theorem short_value_ne_ddash (c : Char) (v : String) :
    ("-" ++ String.mk [c] ++ "=" ++ v) = "--" → False := by
  intro h
  have h2 := data_eq_of_eq h
  rw [short_value_data] at h2
  simp at h2

/-- Applying `finish` to the outcome of feeding, to speak about the final
binding and error list. -/
def finishAfter (r : Except PErr ParserState) (am : Bool) :
    Except PErr (List (Nat × Value) × List String) :=
  match r with
  | .ok q => finish q am
  | .error e => .error e

/-- C7: for a parser state accepting flags with no parameter awaiting a
value, when the flag name does not resolve to a boolean parameter and the
value contains no newline (so that the inline spelling is recognised by the
flag regexes, whose value group `(.*)` cannot match a newline), the inline
spelling `--name=v` leads to exactly the same parser state as the two-token
spelling `--name v`, whatever tokens follow; likewise for a shorthand letter,
`-c=v` and `-c v` agree.  Consequently the final binding and error list are
identical. -/
theorem flag_value_spellings_equivalent
    (p : ParserState) (name v : String) (c : Char) (ts : List String)
    (am : Bool)
    (hp1 : p.allow_flags = true) (hp2 : p.current_parameter = none)
    (hne : name.data ≠ [])
    (hchars : ∀ ch ∈ name.data, isLongNameChar ch = true)
    (hvnl : ∀ c2 ∈ v.data, c2 ≠ chr10)
    (hlong : ∀ q, parametersByName p.parameters name = some q →
      q.type.isBool = false)
    (hc : isShortNameChar c = true) (hcd : c ≠ '-')
    (hshort : ∀ q, parametersByShorthand p.parameters (String.mk [c]) = some q →
      q.type.isBool = false) :
    feed_many p (("--" ++ name ++ "=" ++ v) :: ts) =
      feed_many p (("--" ++ name) :: v :: ts) ∧
    feed_many p (("-" ++ String.mk [c] ++ "=" ++ v) :: ts) =
      feed_many p (("-" ++ String.mk [c]) :: v :: ts) ∧
    finishAfter (feed_many p (("--" ++ name ++ "=" ++ v) :: ts)) am =
      finishAfter (feed_many p (("--" ++ name) :: v :: ts)) am ∧
    finishAfter (feed_many p (("-" ++ String.mk [c] ++ "=" ++ v) :: ts)) am =
      finishAfter (feed_many p (("-" ++ String.mk [c]) :: v :: ts)) am := by
  have hlongeq : feed_many p (("--" ++ name ++ "=" ++ v) :: ts) =
      feed_many p (("--" ++ name) :: v :: ts) := by
    have h1 : feed_one p ("--" ++ name ++ "=" ++ v) =
        .ok { p with assigned_parameters :=
                dictAppend p.assigned_parameters name v } := by
      rw [feed_one_flags_path p _ hp1 hp2 (fun h => long_value_ne_ddash name v h),
        matchLongFlag_value name v hne hchars hvnl]
      exact feedFlags_single_inline p name v false hp2
    have h2 : feed_one p ("--" ++ name) =
        .ok { p with current_parameter := some name } := by
      rw [feed_one_flags_path p _ hp1 hp2 (fun h => long_plain_ne_ddash name hne h),
        matchLongFlag_plain name hne hchars]
      exact feedFlags_single_noval_await p name false hp2
        (by intro q hq; exact hlong q (by simpa using hq))
    rw [feed_many_cons_ok _ _ _ _ h1, feed_many_cons_ok _ _ _ _ h2]
    have h3 : feed_one { p with current_parameter := some name } v =
        .ok { p with assigned_parameters :=
                dictAppend p.assigned_parameters name v } := by
      unfold feed_one
      simp [hp2]
    rw [feed_many_cons_ok _ _ _ _ h3]
  have hshorteq : feed_many p (("-" ++ String.mk [c] ++ "=" ++ v) :: ts) =
      feed_many p (("-" ++ String.mk [c]) :: v :: ts) := by
    have h1 : feed_one p ("-" ++ String.mk [c] ++ "=" ++ v) =
        .ok { p with assigned_parameters :=
                dictAppend p.assigned_parameters (String.mk [c]) v } := by
      rw [feed_one_flags_path p _ hp1 hp2 (fun h => short_value_ne_ddash c v h),
        matchLongFlag_short_value c v hcd, matchShortFlag_value c v hc hvnl]
      exact feedFlags_single_inline p (String.mk [c]) v true hp2
    have h2 : feed_one p ("-" ++ String.mk [c]) =
        .ok { p with current_parameter := some (String.mk [c]) } := by
      rw [feed_one_flags_path p _ hp1 hp2 (fun h => short_plain_ne_ddash c hcd h),
        matchLongFlag_short_plain c hcd, matchShortFlag_plain c hc]
      exact feedFlags_single_noval_await p (String.mk [c]) true hp2
        (by intro q hq; exact hshort q (by simpa using hq))
    rw [feed_many_cons_ok _ _ _ _ h1, feed_many_cons_ok _ _ _ _ h2]
    have h3 : feed_one { p with current_parameter := some (String.mk [c]) } v =
        .ok { p with assigned_parameters :=
                dictAppend p.assigned_parameters (String.mk [c]) v } := by
      unfold feed_one
      simp [hp2]
    rw [feed_many_cons_ok _ _ _ _ h3]
  exact ⟨hlongeq, hshorteq, by rw [hlongeq], by rw [hshorteq]⟩

/-- C7, witness: with an `int` parameter `count` with shorthand `c`, the four
spellings pair up into identical bindings and error lists. -/
theorem flag_value_spellings_witness :
    feed_many (initParser [⟨"count", some "c", "count", .intT, true, false, none⟩])
        ["--count=5"] =
      feed_many (initParser [⟨"count", some "c", "count", .intT, true, false, none⟩])
        ["--count", "5"] ∧
    feed_many (initParser [⟨"count", some "c", "count", .intT, true, false, none⟩])
        ["-c=5"] =
      feed_many (initParser [⟨"count", some "c", "count", .intT, true, false, none⟩])
        ["-c", "5"] := by
  have h := flag_value_spellings_equivalent
    (initParser [⟨"count", some "c", "count", .intT, true, false, none⟩])
    "count" "5" 'c' [] false rfl rfl (by decide) (by decide) (by decide)
    (by intro q hq; rw [show parametersByName
        (initParser [⟨"count", some "c", "count", .intT, true, false, none⟩]).parameters
        "count" = some ⟨"count", some "c", "count", .intT, true, false, none⟩
        from rfl] at hq; cases hq; rfl)
    (by decide) (by decide)
    (by intro q hq; rw [show parametersByShorthand
        (initParser [⟨"count", some "c", "count", .intT, true, false, none⟩]).parameters
        (String.mk ['c']) = some ⟨"count", some "c", "count", .intT, true, false, none⟩
        from rfl] at hq; cases hq; rfl)
  exact ⟨h.1, h.2.1⟩

/-- C7, counterexample: the spelling equivalence does not extend to values
containing a newline.  The flag regexes match the inline value with `(.*)`,
which cannot match a newline, so under `fullmatch` the token containing an
inline newline value is not a flag at all: with the `int` parameter `count`,
the two tokens `--count` and `"5\n"` bind the value 5 (Python strips the
whitespace when coercing to int), while the single token `--count=5\n` is
treated as a positional token, leaving `count` unassigned and producing a
missing-value error — the two spellings disagree. -/
theorem flag_inline_newline_value_cex :
    runParse [⟨"count", some "c", "count", .intT, true, false, none⟩]
        ["--count", "5\n"] false = .ok ([(0, .vInt 5)], []) ∧
    runParse [⟨"count", some "c", "count", .intT, true, false, none⟩]
        ["--count=5\n"] false = .ok ([], ["Missing value for `count`"]) ∧
    runParse [⟨"count", some "c", "count", .intT, true, false, none⟩]
        ["--count", "5\n"] false ≠
      runParse [⟨"count", some "c", "count", .intT, true, false, none⟩]
        ["--count=5\n"] false := by
  refine ⟨by rfl, by rfl, fun h => ?_⟩
  rw [show runParse [⟨"count", some "c", "count", .intT, true, false, none⟩]
        ["--count", "5\n"] false = .ok ([(0, .vInt 5)], []) from rfl,
    show runParse [⟨"count", some "c", "count", .intT, true, false, none⟩]
        ["--count=5\n"] false =
      .ok ([], ["Missing value for `count`"]) from rfl] at h
  simp at h

theorem feedPositional_fields (q : ParserState) (t : String) :
    (feedPositional q t).allow_flags = q.allow_flags ∧
    (feedPositional q t).current_parameter = q.current_parameter ∧
    (feedPositional q t).parameters = q.parameters := by
  unfold feedPositional
  cases (positionalParameters q.parameters)[q.next_positional_parameter_index]? with
  | none => exact ⟨rfl, rfl, rfl⟩
  | some param =>
    cases hv : param.is_variadic <;> simp [hv]

theorem feed_one_noflags (q : ParserState) (t : String)
    (h1 : q.allow_flags = false) (h2 : q.current_parameter = none) :
    feed_one q t = .ok (feedPositional q t) := by
  unfold feed_one
  rw [h2, h1]
  simp

theorem feed_many_noflags (ts : List String) : ∀ q : ParserState,
    q.allow_flags = false → q.current_parameter = none →
    feed_many q ts = .ok (ts.foldl feedPositional q) ∧
    (ts.foldl feedPositional q).allow_flags = false ∧
    (ts.foldl feedPositional q).current_parameter = none := by
  induction ts with
  | nil => intro q h1 h2; exact ⟨rfl, h1, h2⟩
  | cons t rest ih =>
    intro q h1 h2
    have hfields := feedPositional_fields q t
    have hnext := ih (feedPositional q t) (hfields.1.trans h1)
      (hfields.2.1.trans h2)
    refine ⟨?_, hnext.2.1, hnext.2.2⟩
    rw [feed_many_cons_ok _ _ _ _ (feed_one_noflags q t h1 h2)]
    exact hnext.1

/-- C8: consuming a bare `--` while no flag is awaiting a value disables flag
interpretation; from then on every token, even a flag-shaped one, is handled
by the positional/overflow branch, and the flag-disabled state (with no
parameter ever left awaiting a value) persists for the whole rest of the
parse. -/
theorem end_of_flags_marker_freezes (p : ParserState)
    (hp1 : p.allow_flags = true) (hp2 : p.current_parameter = none) :
    feed_one p "--" = .ok { p with allow_flags := false } ∧
    ∀ ts : List String,
      feed_many { p with allow_flags := false } ts =
        .ok (ts.foldl feedPositional { p with allow_flags := false }) ∧
      (ts.foldl feedPositional { p with allow_flags := false }).allow_flags
        = false := by
  constructor
  · unfold feed_one
    rw [hp2, hp1]
    simp
  · intro ts
    have h := feed_many_noflags ts { p with allow_flags := false } rfl hp2
    exact ⟨h.1, h.2.1⟩

/-- C8, witness: after `--`, a token shaped like a long flag is handled
positionally (here: into overflow), and flags stay disabled. -/
theorem end_of_flags_witness :
    feed_one (initParser []) "--" = .ok { initParser [] with allow_flags := false } ∧
    feed_many { initParser [] with allow_flags := false } ["--looks-like-a-flag"] =
      .ok (["--looks-like-a-flag"].foldl feedPositional
        { initParser [] with allow_flags := false }) := by
  have h := end_of_flags_marker_freezes (initParser []) rfl rfl
  exact ⟨h.1, (h.2 ["--looks-like-a-flag"]).1⟩

theorem scanGroups_cons_ok (sel : String) (g : List String)
    (rest : List (List String)) (k : Nat) (st st2 : List Nat × List String)
    (h : scanGroup sel k g st = .ok st2) :
    scanGroups sel (g :: rest) k st = scanGroups sel rest (k + 1) st2 := by
  show (match scanGroup sel k g st with
    | Except.error j => Except.error j
    | Except.ok st3 => scanGroups sel rest (k + 1) st3) = _
  rw [h]

theorem scanGroups_cons_err (sel : String) (g : List String)
    (rest : List (List String)) (k : Nat) (st : List Nat × List String)
    (j : Nat) (h : scanGroup sel k g st = .error j) :
    scanGroups sel (g :: rest) k st = .error j := by
  show (match scanGroup sel k g st with
    | Except.error j2 => Except.error j2
    | Except.ok st3 => scanGroups sel rest (k + 1) st3) = _
  rw [h]

theorem scanGroup_exact (sel : String) (i : Nat) (aliases : List String) :
    ∀ st : List Nat × List String, (∃ a ∈ aliases, normalize a = sel) →
    scanGroup sel i aliases st = .error i := by
  induction aliases with
  | nil =>
    intro st h
    rcases h with ⟨a, ha, _⟩
    cases ha
  | cons a rest ih =>
    intro st h
    by_cases hc : normalize a = sel
    · simp [scanGroup, hc]
    · rcases h with ⟨b, hb, hbe⟩
      rcases List.mem_cons.mp hb with rfl | hbr
      · exact absurd hbe hc
      · simp only [scanGroup, hc, if_false]
        split
        · exact ih _ ⟨b, hbr, hbe⟩
        · exact ih _ ⟨b, hbr, hbe⟩

/-- Closed form of the partial-match index accumulation over one group. -/
def groupScanIdx (sel : String) (i : Nat) (g : List String) (I : List Nat) :
    List Nat :=
  g.foldl (fun acc a => if strIn sel (normalize a) then insertUniq i acc else acc) I

/-- Closed form of the partial-match value accumulation over one group. -/
def groupScanVals (sel : String) (g : List String) (V : List String) :
    List String :=
  g.foldl
    (fun acc a =>
      if strIn sel (normalize a) then insertUniq (normalize a) acc else acc) V

theorem scanGroup_no_exact (sel : String) (i : Nat) (g : List String) :
    ∀ st : List Nat × List String, (∀ a ∈ g, normalize a ≠ sel) →
    scanGroup sel i g st =
      .ok (groupScanIdx sel i g st.1, groupScanVals sel g st.2) := by
  induction g with
  | nil => intro st h; rfl
  | cons a rest ih =>
    intro st h
    have hne := h a (by simp)
    have hih := ih (insertUniq i st.1, insertUniq (normalize a) st.2)
      (fun x hx => h x (by simp [hx]))
    have hih2 := ih st (fun x hx => h x (by simp [hx]))
    by_cases hs : strIn sel (normalize a) = true
    · simp [scanGroup, groupScanIdx, groupScanVals, hne, hs, hih]
    · simp [scanGroup, groupScanIdx, groupScanVals, hne, hs, hih2]

theorem mem_insertUniq {α : Type} [DecidableEq α] (x y : α) (l : List α) :
    y ∈ insertUniq x l ↔ y = x ∨ y ∈ l := by
  unfold insertUniq
  by_cases h : x ∈ l
  · simp only [if_pos h]
    constructor
    · exact fun hy => Or.inr hy
    · rintro (rfl | hy)
      · exact h
      · exact hy
  · simp [if_neg h, or_comm]

theorem insertUniq_idem {α : Type} [DecidableEq α] (x : α) (l : List α) :
    insertUniq x (insertUniq x l) = insertUniq x l := by
  have hx : x ∈ insertUniq x l := by
    rw [mem_insertUniq]
    exact Or.inl rfl
  unfold insertUniq
  rw [if_pos]
  exact hx

theorem insertUniq_not_mem {α : Type} [DecidableEq α] (x : α) (l : List α)
    (h : x ∉ l) : insertUniq x l = l ++ [x] := by
  unfold insertUniq
  rw [if_neg h]

/-- Whether some alias of the group contains the (normalized) input. -/
def groupPartialB (sel : String) (g : List String) : Bool :=
  g.any (fun a => strIn sel (normalize a))

theorem groupScanIdx_closed (sel : String) (i : Nat) (g : List String) :
    ∀ I, groupScanIdx sel i g I =
      if groupPartialB sel g then insertUniq i I else I := by
  induction g with
  | nil => intro I; rfl
  | cons a rest ih =>
    intro I
    by_cases hs : strIn sel (normalize a) = true
    · simp [groupScanIdx, groupPartialB, hs, List.foldl_cons, ih,
        insertUniq_idem]
      rw [show List.foldl (fun acc a =>
          if strIn sel (normalize a) then insertUniq i acc else acc)
          (insertUniq i I) rest = groupScanIdx sel i rest (insertUniq i I)
          from rfl]
      rw [ih]
      split
      · exact insertUniq_idem i I
      · rfl
    · simp only [groupScanIdx, List.foldl_cons, hs, Bool.false_eq_true,
        if_false]
      rw [show List.foldl (fun acc a =>
          if strIn sel (normalize a) then insertUniq i acc else acc)
          I rest = groupScanIdx sel i rest I from rfl]
      rw [ih]
      simp [groupPartialB, hs]

/-- The index list the full scan produces: the positions (from `k`) of the
groups with a partially matching alias, in order. -/
def partialIdxFrom (sel : String) : List (List String) → Nat → List Nat
  | [], _ => []
  | g :: rest, k =>
    if groupPartialB sel g then k :: partialIdxFrom sel rest (k + 1)
    else partialIdxFrom sel rest (k + 1)

/-- The value list the full scan produces. -/
def scanValsAll (sel : String) : List (List String) → List String → List String
  | [], V => V
  | g :: rest, V => scanValsAll sel rest (groupScanVals sel g V)

theorem scanGroups_no_exact (sel : String) (gs : List (List String)) :
    ∀ (k : Nat) (I : List Nat) (V : List String),
    (∀ g ∈ gs, ∀ a ∈ g, normalize a ≠ sel) → (∀ j ∈ I, j < k) →
    scanGroups sel gs k (I, V) =
      .ok (I ++ partialIdxFrom sel gs k, scanValsAll sel gs V) := by
  induction gs with
  | nil =>
    intro k I V h hb
    simp [scanGroups, partialIdxFrom, scanValsAll]
  | cons g rest ih =>
    intro k I V h hb
    rw [scanGroups_cons_ok sel g rest k (I, V) _
      (scanGroup_no_exact sel k g (I, V) (h g (by simp)))]
    rw [groupScanIdx_closed]
    by_cases hp : groupPartialB sel g = true
    · rw [if_pos hp]
      have hknot : k ∉ I := fun hk => absurd (hb k hk) (lt_irrefl k)
      rw [insertUniq_not_mem k I hknot]
      rw [ih (k + 1) (I ++ [k]) _ (fun g2 hg2 => h g2 (by simp [hg2]))
        (by intro j hj
            rcases List.mem_append.mp hj with hj2 | hj2
            · exact Nat.lt_succ_of_lt (hb j hj2)
            · rw [List.mem_singleton] at hj2
              subst hj2
              exact Nat.lt_succ_self j)]
      simp [partialIdxFrom, scanValsAll, hp]
    · rw [if_neg hp]
      rw [ih (k + 1) I _ (fun g2 hg2 => h g2 (by simp [hg2]))
        (fun j hj => Nat.lt_succ_of_lt (hb j hj))]
      simp [partialIdxFrom, scanValsAll, hp]

theorem mem_groupScanVals (sel : String) (g : List String) :
    ∀ (V : List String) (s : String), s ∈ groupScanVals sel g V ↔
      s ∈ V ∨ ∃ a ∈ g, normalize a = s ∧ strIn sel s = true := by
  induction g with
  | nil => intro V s; simp [groupScanVals]
  | cons a rest ih =>
    intro V s
    by_cases hs : strIn sel (normalize a) = true
    · rw [show groupScanVals sel (a :: rest) V =
        groupScanVals sel rest (insertUniq (normalize a) V) from by
          simp [groupScanVals, hs]]
      rw [ih]
      rw [mem_insertUniq]
      constructor
      · rintro ((rfl | hv) | ⟨b, hb, hbs, hbin⟩)
        · exact Or.inr ⟨a, by simp, rfl, hs⟩
        · exact Or.inl hv
        · exact Or.inr ⟨b, by simp [hb], hbs, hbin⟩
      · rintro (hv | ⟨b, hb, hbs, hbin⟩)
        · exact Or.inl (Or.inr hv)
        · rcases List.mem_cons.mp hb with rfl | hbr
          · exact Or.inl (Or.inl hbs.symm)
          · exact Or.inr ⟨b, hbr, hbs, hbin⟩
    · rw [show groupScanVals sel (a :: rest) V =
        groupScanVals sel rest V from by simp [groupScanVals, hs]]
      rw [ih]
      constructor
      · rintro (hv | ⟨b, hb, hbs, hbin⟩)
        · exact Or.inl hv
        · exact Or.inr ⟨b, by simp [hb], hbs, hbin⟩
      · rintro (hv | ⟨b, hb, hbs, hbin⟩)
        · exact Or.inl hv
        · rcases List.mem_cons.mp hb with rfl | hbr
          · rw [hbs] at hs
            exact absurd hbin hs
          · exact Or.inr ⟨b, hbr, hbs, hbin⟩

theorem mem_scanValsAll (sel : String) (gs : List (List String)) :
    ∀ (V : List String) (s : String), s ∈ scanValsAll sel gs V ↔
      s ∈ V ∨ ∃ g ∈ gs, ∃ a ∈ g, normalize a = s ∧ strIn sel s = true := by
  induction gs with
  | nil => intro V s; simp [scanValsAll]
  | cons g rest ih =>
    intro V s
    rw [show scanValsAll sel (g :: rest) V =
      scanValsAll sel rest (groupScanVals sel g V) from rfl]
    rw [ih, mem_groupScanVals]
    constructor
    · rintro ((hv | ⟨a, ha, has, hain⟩) | ⟨g2, hg2, a, ha, has, hain⟩)
      · exact Or.inl hv
      · exact Or.inr ⟨g, by simp, a, ha, has, hain⟩
      · exact Or.inr ⟨g2, by simp [hg2], a, ha, has, hain⟩
    · rintro (hv | ⟨g2, hg2, a, ha, has, hain⟩)
      · exact Or.inl (Or.inl hv)
      · rcases List.mem_cons.mp hg2 with rfl | hgr
        · exact Or.inl (Or.inr ⟨a, ha, has, hain⟩)
        · exact Or.inr ⟨g2, hgr, a, ha, has, hain⟩

theorem heads_of_nonempty (options : List (List String))
    (h : ∀ g ∈ options, g ≠ []) :
    heads options = some (options.map (fun g => g.headD "")) := by
  induction options with
  | nil => rfl
  | cons g rest ih =>
    cases hg : g with
    | nil => exact absurd hg (h g (by simp))
    | cons x t =>
      simp only [heads, List.map_cons, hg]
      rw [ih (fun g2 hg2 => h g2 (by simp [hg2]))]
      rfl

theorem scanGroups_exact_split (sel : String) (pre : List (List String)) :
    ∀ (k : Nat) (st : List Nat × List String) (g : List String)
      (post : List (List String)),
    (∀ g2 ∈ pre, ∀ a ∈ g2, normalize a ≠ sel) →
    (∃ a ∈ g, normalize a = sel) →
    scanGroups sel (pre ++ g :: post) k st = .error (k + pre.length) := by
  induction pre with
  | nil =>
    intro k st g post hpre hex
    rw [List.nil_append]
    rw [scanGroups_cons_err sel g post k st k (scanGroup_exact sel k g st hex)]
    simp
  | cons p1 pre2 ih =>
    intro k st g post hpre hex
    rw [List.cons_append]
    rw [scanGroups_cons_ok sel p1 _ k st _
      (scanGroup_no_exact sel k p1 st (hpre p1 (by simp)))]
    rw [ih (k + 1) _ g post (fun g2 hg2 => hpre g2 (by simp [hg2])) hex]
    simp [Nat.add_assoc, Nat.add_comm 1 pre2.length]

/-- C3: if the candidate groups split as `pre ++ g :: post` where no alias in
`pre` normalizes to the input but some alias of `g` does, `choose_string`
returns that group's index (the scan returns it the moment the exact match is
seen), regardless of any substring matches elsewhere. -/
theorem choose_string_exact_match_wins (options : List (List String))
    (selection : String) (pre post : List (List String)) (g : List String)
    (hsplit : options = pre ++ g :: post)
    (hpre : ∀ g2 ∈ pre, ∀ a ∈ g2, normalize a ≠ normalize selection)
    (hex : ∃ a ∈ g, normalize a = normalize selection) :
    choose_string options selection = .ok (.found pre.length) := by
  subst hsplit
  have hscan := scanGroups_exact_split (normalize selection) pre 0 ([], [])
    g post hpre hex
  simp only [choose_string, hscan, Nat.zero_add]

/-- C3, witness: candidates `["help"], ["he"]` with input `"he"` give the
exact match on index 1, not an ambiguity. -/
theorem choose_string_exact_witness :
    choose_string [["help"], ["he"]] "he" = .ok (.found 1) := by
  have h := choose_string_exact_match_wins [["help"], ["he"]] "he"
    [["help"]] [] ["he"] rfl (by decide) (by decide)
  exact h

/-- C4: with no exact normalized match anywhere and no empty candidate group:
zero partially matching groups yield `NoSuchOption` carrying the canonical
(first) name of every group; exactly one matching group yields its index;
two or more yield `AmbiguousOption` carrying the canonical names and a list
of matched strings that holds exactly the normalized aliases containing the
normalized input. -/
theorem choose_string_partial_classification (options : List (List String))
    (selection : String)
    (hnx : ∀ g ∈ options, ∀ a ∈ g, normalize a ≠ normalize selection)
    (hne : ∀ g ∈ options, g ≠ []) :
    (partialIdxFrom (normalize selection) options 0 = [] →
      choose_string options selection =
        .ok (.noSuchOption (normalize selection)
          (options.map (fun g => g.headD "")))) ∧
    (∀ i, partialIdxFrom (normalize selection) options 0 = [i] →
      choose_string options selection = .ok (.found i)) ∧
    (2 ≤ (partialIdxFrom (normalize selection) options 0).length →
      ∃ vals, choose_string options selection =
        .ok (.ambiguousOption (normalize selection) vals
          (options.map (fun g => g.headD ""))) ∧
        ∀ s, s ∈ vals ↔ ∃ g ∈ options, ∃ a ∈ g,
          normalize a = s ∧ strIn (normalize selection) s = true) := by
  have hscan := scanGroups_no_exact (normalize selection) options 0 [] []
    hnx (by simp)
  rw [List.nil_append] at hscan
  refine ⟨?_, ?_, ?_⟩
  · intro hempty
    rw [hempty] at hscan
    simp only [choose_string, hscan, heads_of_nonempty options hne]
  · intro i hone
    rw [hone] at hscan
    simp only [choose_string, hscan]
  · intro hlen
    refine ⟨scanValsAll (normalize selection) options [], ?_, ?_⟩
    · rcases hl : partialIdxFrom (normalize selection) options 0 with
        _ | ⟨a, _ | ⟨b, t⟩⟩
      · rw [hl] at hlen; simp at hlen
      · rw [hl] at hlen; simp at hlen
      · rw [hl] at hscan
        simp only [choose_string, hscan, heads_of_nonempty options hne]
    · intro s
      rw [mem_scanValsAll]
      simp

/-- C4, witness: the spec's three scenarios — `xyz` matches neither `start`
nor `stop`; a single-group partial match resolves uniquely; `bu` against
`build`/`bundle` is ambiguous, carrying both matched strings. -/
theorem choose_string_partial_witness :
    choose_string [["start"], ["stop"]] "xyz" =
      .ok (.noSuchOption "xyz" ["start", "stop"]) ∧
    choose_string [["alpha"], ["beta"]] "alp" = .ok (.found 0) ∧
    ∃ vals, choose_string [["build"], ["bundle"]] "bu" =
      .ok (.ambiguousOption "bu" vals ["build", "bundle"]) ∧
      "build" ∈ vals ∧ "bundle" ∈ vals := by
  refine ⟨?_, ?_, ?_⟩
  · exact (choose_string_partial_classification [["start"], ["stop"]] "xyz"
      (by decide) (by decide)).1 (by decide)
  · exact (choose_string_partial_classification [["alpha"], ["beta"]] "alp"
      (by decide) (by decide)).2.1 0 (by decide)
  · obtain ⟨vals, h1, h2⟩ := (choose_string_partial_classification
      [["build"], ["bundle"]] "bu" (by decide) (by decide)).2.2 (by decide)
    refine ⟨vals, h1, ?_, ?_⟩
    · exact (h2 "build").mpr ⟨["build"], by simp, "build", by simp,
        by decide, by decide⟩
    · exact (h2 "bundle").mpr ⟨["bundle"], by simp, "bundle", by simp,
        by decide, by decide⟩

theorem dictFind_dictAppend_self (d : List (String × List String))
    (k v : String) :
    dictFind (dictAppend d k v) k = some ((dictFind d k).getD [] ++ [v]) := by
  induction d with
  | nil => simp [dictAppend, dictFind]
  | cons kv rest ih =>
    obtain ⟨k2, vs⟩ := kv
    by_cases h : k2 = k
    · subst h
      simp [dictAppend, dictFind]
    · simp [dictAppend, dictFind, h, ih]

theorem dictFind_dictAppend_ne (d : List (String × List String))
    (k k2 v : String) (h : k ≠ k2) :
    dictFind (dictAppend d k v) k2 = dictFind d k2 := by
  induction d with
  | nil => simp [dictAppend, dictFind, h]
  | cons kv rest ih =>
    obtain ⟨k3, vs⟩ := kv
    by_cases h3 : k3 = k
    · subst h3
      simp [dictAppend, dictFind, h]
    · by_cases h4 : k3 = k2
      · subst h4
        simp [dictAppend, dictFind, h3]
      · simp [dictAppend, dictFind, h3, h4, ih]

theorem dictFind_dictRemove_ne (d : List (String × List String))
    (k k2 : String) (h : k ≠ k2) :
    dictFind (dictRemove d k) k2 = dictFind d k2 := by
  induction d with
  | nil => simp [dictRemove, dictFind]
  | cons kv rest ih =>
    obtain ⟨k3, vs⟩ := kv
    by_cases h3 : k3 = k
    · subst h3
      simp [dictRemove, dictFind, h, ih]
    · by_cases h4 : k3 = k2
      · subst h4
        simp [dictRemove, dictFind, h3]
      · simp [dictRemove, dictFind, h3, h4, ih]

theorem dictFind_dictRemove_of_none (d : List (String × List String))
    (k k2 : String) (h : dictFind d k2 = none) :
    dictFind (dictRemove d k) k2 = none := by
  induction d with
  | nil => rfl
  | cons kv rest ih =>
    obtain ⟨k3, vs⟩ := kv
    have h3 : k3 ≠ k2 := by
      intro he
      subst he
      simp [dictFind] at h
    have hr : dictFind rest k2 = none := by
      simpa [dictFind, h3] using h
    by_cases h4 : k3 = k
    · subst h4
      simp only [dictRemove, if_pos rfl]
      exact hr
    · simp [dictRemove, dictFind, h3, h4, ih hr]

/-- A token that the tokenizer never treats as a flag or as the end-of-flags
marker: it is handled by the positional branch whenever no value is
pending. -/
def plainToken (t : String) : Prop :=
  t ≠ "--" ∧ matchLongFlag t = none ∧ matchShortFlag t = none

instance (t : String) : Decidable (plainToken t) := by
  unfold plainToken
  infer_instance

theorem feed_one_plain (q : ParserState) (t : String)
    (h2 : q.current_parameter = none) (hp : plainToken t) :
    feed_one q t = .ok (feedPositional q t) := by
  unfold feed_one
  rw [h2]
  cases hflags : q.allow_flags with
  | false => simp
  | true => simp [hp.1, hp.2.1, hp.2.2]

/-- Appending newly collected raw values to an optional existing entry of the
assigned-values dictionary. -/
def appendValues (o : Option (List String)) (new : List String) :
    Option (List String) :=
  match new with
  | [] => o
  | _ => some (o.getD [] ++ new)

theorem variadic_collect (qs : List Parameter) (vp : Parameter)
    (hvar : vp.is_variadic = true)
    (hqsvar : ∀ q ∈ qs, q.is_variadic = false)
    (hname : ∀ q ∈ qs, q.name ≠ vp.name) :
    ∀ (ts : List String) (p : ParserState),
    positionalParameters p.parameters = qs ++ [vp] →
    p.current_parameter = none →
    p.next_positional_parameter_index ≤ qs.length →
    (∀ t ∈ ts, plainToken t) →
    ∃ p2, feed_many p ts = .ok p2 ∧
      p2.parameters = p.parameters ∧
      p2.current_parameter = none ∧
      p2.errors = p.errors ∧
      dictFind p2.assigned_parameters vp.name =
        appendValues (dictFind p.assigned_parameters vp.name)
          (ts.drop (qs.length - p.next_positional_parameter_index)) := by
  intro ts
  induction ts with
  | nil =>
    intro p hsplit hcur hle hplain
    exact ⟨p, rfl, rfl, hcur, rfl, by simp [appendValues]⟩
  | cons t rest ih =>
    intro p hsplit hcur hle hplain
    rw [feed_many_cons_ok _ _ _ _ (feed_one_plain p t hcur (hplain t (by simp)))]
    by_cases hi : p.next_positional_parameter_index < qs.length
    · have hget : (positionalParameters p.parameters)[p.next_positional_parameter_index]? =
          some qs[p.next_positional_parameter_index] := by
        rw [hsplit, List.getElem?_append, if_pos hi]
        exact List.getElem?_eq_getElem hi
      have hq : qs[p.next_positional_parameter_index] ∈ qs :=
        List.getElem?_mem (List.getElem?_eq_getElem hi)
      have hfp : feedPositional p t =
          { p with
              assigned_parameters := dictAppend p.assigned_parameters
                qs[p.next_positional_parameter_index].name t
              next_positional_parameter_index :=
                p.next_positional_parameter_index + 1 } := by
        unfold feedPositional
        rw [hget]
        simp [hqsvar _ hq]
      rw [hfp]
      obtain ⟨p2, hfm, hpar, hcur2, herr, hfind⟩ := ih
        { p with
            assigned_parameters := dictAppend p.assigned_parameters
              qs[p.next_positional_parameter_index].name t
            next_positional_parameter_index :=
              p.next_positional_parameter_index + 1 }
        hsplit hcur hi (fun x hx => hplain x (by simp [hx]))
      refine ⟨p2, hfm, hpar, hcur2, herr, ?_⟩
      rw [hfind]
      simp only []
      rw [dictFind_dictAppend_ne _ _ _ _ (hname _ hq)]
      have harith : qs.length - p.next_positional_parameter_index =
          (qs.length - (p.next_positional_parameter_index + 1)) + 1 := by
        omega
      rw [harith, List.drop_succ_cons]
    · have hieq : p.next_positional_parameter_index = qs.length := by omega
      have hget : (positionalParameters p.parameters)[p.next_positional_parameter_index]? =
          some vp := by
        rw [hsplit, List.getElem?_append, if_neg (by omega), hieq]
        simp
      have hfp : feedPositional p t =
          { p with
              assigned_parameters := dictAppend p.assigned_parameters
                vp.name t } := by
        unfold feedPositional
        rw [hget]
        simp [hvar]
      rw [hfp]
      obtain ⟨p2, hfm, hpar, hcur2, herr, hfind⟩ := ih
        { p with
            assigned_parameters := dictAppend p.assigned_parameters vp.name t }
        hsplit hcur (le_of_eq hieq) (fun x hx => hplain x (by simp [hx]))
      refine ⟨p2, hfm, hpar, hcur2, herr, ?_⟩
      rw [hfind]
      simp only []
      rw [dictFind_dictAppend_self]
      rw [hieq]
      simp only [Nat.sub_self, List.drop_zero]
      cases hrest : rest with
      | nil => simp [appendValues]
      | cons r rs =>
        simp [appendValues]

theorem finishCoerce_errors_ext (name : String) (typ : TypeDesc) :
    ∀ (raws : List String) (errors : List String) (vals : List Value)
      (errs2 : List String),
    finishCoerce name typ raws errors = .ok (vals, errs2) →
    ∃ e2, errs2 = errors ++ e2 := by
  intro raws
  induction raws with
  | nil =>
    intro errors vals errs2 h
    unfold finishCoerce at h
    cases h
    exact ⟨[], by simp⟩
  | cons r rest ih =>
    intro errors vals errs2 h
    unfold finishCoerce at h
    split at h
    · split at h
      · rename_i hrec
        cases h
        exact ih _ _ _ hrec
      · cases h
    · rename_i m hm
      rcases ih _ _ _ h with ⟨e2, he2⟩
      refine ⟨s!"Invalid value for `{name}`: {m}" :: e2, ?_⟩
      rw [he2]
      simp
    · cases h

/-- The coercions of a list of raw values, when all of them succeed. -/
def coercedList (typ : TypeDesc) : List String → Option (List Value)
  | [] => some []
  | r :: rest =>
    match parse_value r typ with
    | .ok v => (coercedList typ rest).map (v :: ·)
    | .error _ => none

theorem finishCoerce_all_ok (name : String) (typ : TypeDesc) :
    ∀ (raws : List String) (vals : List Value) (errors : List String),
    coercedList typ raws = some vals →
    finishCoerce name typ raws errors = .ok (vals, errors) := by
  intro raws
  induction raws with
  | nil =>
    intro vals errors h
    cases h
    rfl
  | cons r rest ih =>
    intro vals errors h
    unfold coercedList at h
    split at h
    · rename_i v hv
      cases hr : coercedList typ rest with
      | none => rw [hr] at h; cases h
      | some vs =>
        rw [hr] at h
        cases h
        unfold finishCoerce
        rw [hv, ih vs errors hr]
    · cases h

theorem finishLoop_cons_ok (i : Nat) (param : Parameter)
    (rest : List (Nat × Parameter)) (assigned : List (String × List String))
    (errors : List String) (result : List (Nat × Value)) (am : Bool)
    (out : List (String × List String) × List String × List (Nat × Value))
    (h : finishStep i param assigned errors result am = .ok out) :
    finishLoop ((i, param) :: rest) assigned errors result am =
      finishLoop rest out.1 out.2.1 out.2.2 am := by
  obtain ⟨a2, e2, r2⟩ := out
  show (match finishStep i param assigned errors result am with
    | Except.error e => Except.error e
    | Except.ok (a3, e3, r3) => finishLoop rest a3 e3 r3 am) = _
  rw [h]

theorem finishLoop_cons_err (i : Nat) (param : Parameter)
    (rest : List (Nat × Parameter)) (assigned : List (String × List String))
    (errors : List String) (result : List (Nat × Value)) (am : Bool)
    (e : PErr)
    (h : finishStep i param assigned errors result am = .error e) :
    finishLoop ((i, param) :: rest) assigned errors result am = .error e := by
  show (match finishStep i param assigned errors result am with
    | Except.error e2 => Except.error e2
    | Except.ok (a3, e3, r3) => finishLoop rest a3 e3 r3 am) = _
  rw [h]

theorem finishStep_exts (i : Nat) (q : Parameter)
    (assigned : List (String × List String)) (errors : List String)
    (result : List (Nat × Value)) (am : Bool)
    (out : List (String × List String) × List String × List (Nat × Value))
    (h : finishStep i q assigned errors result am = .ok out) :
    (∃ e2, out.2.1 = errors ++ e2) ∧
    (∃ r2, out.2.2 = result ++ r2 ∧ ∀ pr ∈ r2, pr.1 = i) ∧
    (out.1 = assigned ∨ out.1 = dictRemove assigned q.name) := by
  unfold finishStep at h
  split at h
  · split at h
    · cases h
      exact ⟨⟨[], by simp⟩, ⟨[(i, _)], rfl, by simp⟩, Or.inl rfl⟩
    · split at h
      · cases h
        exact ⟨⟨[], by simp⟩, ⟨[], by simp⟩, Or.inl rfl⟩
      · cases h
        exact ⟨⟨_, rfl⟩, ⟨[], by simp⟩, Or.inl rfl⟩
  · split at h
    · cases h
      exact ⟨⟨_, rfl⟩, ⟨[], by simp⟩, Or.inr rfl⟩
    · split at h
      · cases h
      · rename_i values errors2 hco
        rcases finishCoerce_errors_ext q.name q.type _ _ _ _ hco with ⟨e2, he2⟩
        split at h
        · cases h
          exact ⟨⟨e2, he2⟩, ⟨[(i, _)], rfl, by simp⟩, Or.inr rfl⟩
        · split at h
          · cases h
            exact ⟨⟨e2, he2⟩, ⟨[(i, _)], rfl, by simp⟩, Or.inr rfl⟩
          · cases h
            exact ⟨⟨e2, he2⟩, ⟨[], by simp⟩, Or.inr rfl⟩

theorem finishStep_other_key (i : Nat) (q : Parameter)
    (assigned : List (String × List String)) (errors : List String)
    (result : List (Nat × Value)) (am : Bool) (key : String)
    (hne : q.name ≠ key)
    (out : List (String × List String) × List String × List (Nat × Value))
    (h : finishStep i q assigned errors result am = .ok out) :
    dictFind out.1 key = dictFind assigned key := by
  rcases (finishStep_exts i q assigned errors result am out h).2.2 with ha | ha
  · rw [ha]
  · rw [ha, dictFind_dictRemove_ne assigned q.name key hne]

theorem finishLoop_mono : ∀ (pairs : List (Nat × Parameter))
    (assigned : List (String × List String)) (errors : List String)
    (acc : List (Nat × Value)) (am : Bool)
    (res : List (Nat × Value) × List (String × List String) × List String),
    finishLoop pairs assigned errors acc am = .ok res →
    (∃ r2, res.1 = acc ++ r2 ∧ ∀ pr ∈ r2, pr.1 ∈ pairs.map Prod.fst) ∧
    (∃ e2, res.2.2 = errors ++ e2) := by
  intro pairs
  induction pairs with
  | nil =>
    intro assigned errors acc am res h
    cases h
    exact ⟨⟨[], by simp, by simp⟩, ⟨[], by simp⟩⟩
  | cons pr0 rest ih =>
    intro assigned errors acc am res h
    obtain ⟨i, q⟩ := pr0
    cases hstep : finishStep i q assigned errors acc am with
    | error e =>
      rw [finishLoop_cons_err i q rest assigned errors acc am e hstep] at h
      cases h
    | ok out =>
      rw [finishLoop_cons_ok i q rest assigned errors acc am out hstep] at h
      rcases finishStep_exts i q assigned errors acc am out hstep with
        ⟨⟨e2, he2⟩, ⟨r2, hr2, hr2i⟩, _⟩
      rcases ih out.1 out.2.1 out.2.2 am res h with
        ⟨⟨r3, hr3, hr3i⟩, ⟨e3, he3⟩⟩
      refine ⟨⟨r2 ++ r3, by rw [hr3, hr2, List.append_assoc], ?_⟩,
        ⟨e2 ++ e3, by rw [he3, he2, List.append_assoc]⟩⟩
      intro pr hpr
      rcases List.mem_append.mp hpr with hm | hm
      · simp [hr2i pr hm]
      · have := hr3i pr hm
        simp only [List.map_cons]
        exact List.mem_cons_of_mem _ this

theorem finishStep_skip_missing (i : Nat) (vp : Parameter)
    (assigned : List (String × List String)) (errors : List String)
    (result : List (Nat × Value))
    (hfind : dictFind assigned vp.name = none)
    (hdef : vp.default_value = none) :
    finishStep i vp assigned errors result true = .ok (assigned, errors, result) := by
  unfold finishStep
  rw [hfind, hdef]
  rfl

theorem finishStep_missing_error (i : Nat) (vp : Parameter)
    (assigned : List (String × List String)) (errors : List String)
    (result : List (Nat × Value))
    (hfind : dictFind assigned vp.name = none)
    (hdef : vp.default_value = none) :
    finishStep i vp assigned errors result false =
      .ok (assigned, errors ++ [s!"Missing value for `{vp.name}`"], result) := by
  unfold finishStep
  rw [hfind, hdef]
  rfl

theorem finishStep_variadic_ok (i : Nat) (vp : Parameter)
    (assigned : List (String × List String)) (errors : List String)
    (result : List (Nat × Value)) (am : Bool) (vs : List String)
    (vals : List Value)
    (hfind : dictFind assigned vp.name = some vs)
    (hvar : vp.is_variadic = true)
    (hco : coercedList vp.type vs = some vals) :
    finishStep i vp assigned errors result am =
      .ok (dictRemove assigned vp.name, errors,
        result ++ [(i, .vTuple vals)]) := by
  unfold finishStep
  rw [hfind]
  simp only [hvar, Bool.not_true, Bool.false_eq_true, false_and, if_false,
    finishCoerce_all_ok vp.name vp.type vs vals errors hco, if_true]

theorem finishLoop_missing_mem (vp : Parameter) (k : Nat) :
    ∀ (pre post : List (Nat × Parameter))
      (assigned : List (String × List String)) (errors : List String)
      (acc : List (Nat × Value)),
    (∀ pr ∈ pre, pr.2.name ≠ vp.name) →
    dictFind assigned vp.name = none →
    vp.default_value = none →
    ∀ res, finishLoop (pre ++ (k, vp) :: post) assigned errors acc false = .ok res →
    s!"Missing value for `{vp.name}`" ∈ res.2.2 := by
  intro pre
  induction pre with
  | nil =>
    intro post assigned errors acc hn hfind hdef res h
    rw [List.nil_append, finishLoop_cons_ok _ _ _ _ _ _ _ _
      (finishStep_missing_error k vp assigned errors acc hfind hdef)] at h
    rcases finishLoop_mono _ _ _ _ _ _ h with ⟨_, ⟨e2, he2⟩⟩
    rw [he2]
    simp
  | cons pr0 pre2 ih =>
    intro post assigned errors acc hn hfind hdef res h
    obtain ⟨j, q⟩ := pr0
    rw [List.cons_append] at h
    cases hstep : finishStep j q assigned errors acc false with
    | error e =>
      rw [finishLoop_cons_err _ _ _ _ _ _ _ _ hstep] at h
      cases h
    | ok out =>
      rw [finishLoop_cons_ok _ _ _ _ _ _ _ _ hstep] at h
      have hfind2 : dictFind out.1 vp.name = none := by
        rw [finishStep_other_key j q assigned errors acc false vp.name
          (hn (j, q) (by simp)) out hstep]
        exact hfind
      exact ih post out.1 out.2.1 out.2.2
        (fun pr hpr => hn pr (by simp [hpr])) hfind2 hdef res h

theorem finishLoop_absent_key (vp : Parameter) (k : Nat) :
    ∀ (pre post : List (Nat × Parameter))
      (assigned : List (String × List String)) (errors : List String)
      (acc : List (Nat × Value)),
    (∀ pr ∈ pre, pr.2.name ≠ vp.name) →
    (∀ pr ∈ pre, pr.1 ≠ k) →
    (∀ pr ∈ post, pr.1 ≠ k) →
    dictFind assigned vp.name = none →
    vp.default_value = none →
    ∀ res, finishLoop (pre ++ (k, vp) :: post) assigned errors acc true = .ok res →
    ∀ v, (k, v) ∈ res.1 → (k, v) ∈ acc := by
  intro pre
  induction pre with
  | nil =>
    intro post assigned errors acc hn hprek hpostk hfind hdef res h v hv
    rw [List.nil_append, finishLoop_cons_ok _ _ _ _ _ _ _ _
      (finishStep_skip_missing k vp assigned errors acc hfind hdef)] at h
    rcases finishLoop_mono _ _ _ _ _ _ h with ⟨⟨r2, hr2, hr2k⟩, _⟩
    rw [hr2] at hv
    rcases List.mem_append.mp hv with hm | hm
    · exact hm
    · have := hr2k (k, v) hm
      rcases List.mem_map.mp this with ⟨pr2, hpr2, hpr2k⟩
      exact absurd hpr2k (hpostk pr2 hpr2)
  | cons pr0 pre2 ih =>
    intro post assigned errors acc hn hprek hpostk hfind hdef res h v hv
    obtain ⟨j, q⟩ := pr0
    rw [List.cons_append] at h
    cases hstep : finishStep j q assigned errors acc true with
    | error e =>
      rw [finishLoop_cons_err _ _ _ _ _ _ _ _ hstep] at h
      cases h
    | ok out =>
      rw [finishLoop_cons_ok _ _ _ _ _ _ _ _ hstep] at h
      have hfind2 : dictFind out.1 vp.name = none := by
        rw [finishStep_other_key j q assigned errors acc true vp.name
          (hn (j, q) (by simp)) out hstep]
        exact hfind
      have hacc := ih post out.1 out.2.1 out.2.2
        (fun pr hpr => hn pr (by simp [hpr]))
        (fun pr hpr => hprek pr (by simp [hpr])) hpostk hfind2 hdef res h v hv
      rcases (finishStep_exts j q assigned errors acc true out hstep).2.1 with
        ⟨radd, hradd, hraddi⟩
      rw [hradd] at hacc
      rcases List.mem_append.mp hacc with hm | hm
      · exact hm
      · have := hraddi (k, v) hm
        exact absurd this.symm (hprek (j, q) (by simp))

theorem finishLoop_variadic_mem (vp : Parameter) (k : Nat) (vs : List String)
    (vals : List Value) :
    ∀ (pre post : List (Nat × Parameter))
      (assigned : List (String × List String)) (errors : List String)
      (acc : List (Nat × Value)) (am : Bool),
    (∀ pr ∈ pre, pr.2.name ≠ vp.name) →
    dictFind assigned vp.name = some vs →
    vp.is_variadic = true →
    coercedList vp.type vs = some vals →
    ∀ res, finishLoop (pre ++ (k, vp) :: post) assigned errors acc am = .ok res →
    (k, Value.vTuple vals) ∈ res.1 := by
  intro pre
  induction pre with
  | nil =>
    intro post assigned errors acc am hn hfind hvar hco res h
    rw [List.nil_append, finishLoop_cons_ok _ _ _ _ _ _ _ _
      (finishStep_variadic_ok k vp assigned errors acc am vs vals hfind hvar hco)] at h
    rcases finishLoop_mono _ _ _ _ _ _ h with ⟨⟨r2, hr2, _⟩, _⟩
    rw [hr2]
    simp
  | cons pr0 pre2 ih =>
    intro post assigned errors acc am hn hfind hvar hco res h
    obtain ⟨j, q⟩ := pr0
    rw [List.cons_append] at h
    cases hstep : finishStep j q assigned errors acc am with
    | error e =>
      rw [finishLoop_cons_err _ _ _ _ _ _ _ _ hstep] at h
      cases h
    | ok out =>
      rw [finishLoop_cons_ok _ _ _ _ _ _ _ _ hstep] at h
      have hfind2 : dictFind out.1 vp.name = some vs := by
        rw [finishStep_other_key j q assigned errors acc am vp.name
          (hn (j, q) (by simp)) out hstep]
        exact hfind
      exact ih post out.1 out.2.1 out.2.2 am
        (fun pr hpr => hn pr (by simp [hpr])) hfind2 hvar hco res h

theorem leftoverErrors_ext : ∀ (leftover : List (String × List String))
    (errors errs2 : List String),
    leftoverErrors leftover errors = .ok errs2 → ∃ e2, errs2 = errors ++ e2 := by
  intro leftover
  induction leftover with
  | nil =>
    intro errors errs2 h
    cases h
    exact ⟨[], by simp⟩
  | cons kv rest ih =>
    intro errors errs2 h
    obtain ⟨k3, vs⟩ := kv
    cases vs with
    | nil => cases h
    | cons v vs2 =>
      rcases ih _ _ h with ⟨e2, he2⟩
      refine ⟨s!"Unexpected value `{v}`" :: e2, ?_⟩
      rw [he2]
      simp

theorem finish_ok_parts (p : ParserState) (am : Bool)
    (res : List (Nat × Value) × List String)
    (hcur : p.current_parameter = none)
    (h : finish p am = .ok res) :
    ∃ loopres errs3,
      finishLoop (enumIdx 0 p.parameters) p.assigned_parameters p.errors [] am =
        .ok loopres ∧
      leftoverErrors loopres.2.1 loopres.2.2 = .ok errs3 ∧
      res = (loopres.1, errs3) := by
  unfold finish at h
  rw [hcur] at h
  dsimp only at h
  cases hloop : finishLoop (enumIdx 0 p.parameters) p.assigned_parameters
      p.errors [] am with
  | error e =>
    rw [hloop] at h
    cases h
  | ok lr =>
    rw [hloop] at h
    obtain ⟨r, l, e⟩ := lr
    dsimp only at h
    cases hleft : leftoverErrors l e with
    | error e2 =>
      rw [hleft] at h
      cases h
    | ok errs3 =>
      rw [hleft] at h
      cases h
      exact ⟨(r, l, e), errs3, rfl, hleft, rfl⟩

theorem enumIdx_append {α : Type} (l1 : List α) :
    ∀ (i : Nat) (l2 : List α),
    enumIdx i (l1 ++ l2) = enumIdx i l1 ++ enumIdx (i + l1.length) l2 := by
  induction l1 with
  | nil => intro i l2; simp [enumIdx]
  | cons a rest ih =>
    intro i l2
    show (i, a) :: enumIdx (i + 1) (rest ++ l2) =
      ((i, a) :: enumIdx (i + 1) rest) ++ enumIdx (i + (rest.length + 1)) l2
    rw [List.cons_append, ih (i + 1) l2,
      show i + 1 + rest.length = i + (rest.length + 1) from by omega]

theorem mem_enumIdx {α : Type} : ∀ (l : List α) (i : Nat) (pr : Nat × α),
    pr ∈ enumIdx i l → i ≤ pr.1 ∧ pr.1 < i + l.length ∧ pr.2 ∈ l := by
  intro l
  induction l with
  | nil => intro i pr h; cases h
  | cons a rest ih =>
    intro i pr h
    rcases List.mem_cons.mp h with rfl | hm
    · exact ⟨le_refl i, by simp, by simp⟩
    · rcases ih (i + 1) pr hm with ⟨h1, h2, h3⟩
      exact ⟨by omega, by simp only [List.length_cons]; omega, by simp [h3]⟩

/-- C9: with the last positional parameter variadic, feeding any sequence of
plain (non-flag) tokens to a fresh parser sends every positional token from
the variadic parameter's declaration position onward to that parameter, in
input order.  At `finish`: if at least one token reached it and all coerce,
the parameter is bound to the tuple of the coerced values in order; if none
reached it and it has no default, a missing-value error is recorded unless
missing values are allowed, in which case the parameter is simply absent
from the binding. -/
theorem variadic_positional_collection
    (ps qs : List Parameter) (vp : Parameter) (k : Nat) (ts : List String)
    (hsplit : positionalParameters ps = qs ++ [vp])
    (hvar : vp.is_variadic = true)
    (hqsvar : ∀ q ∈ qs, q.is_variadic = false)
    (hnodup : (ps.map Parameter.name).Nodup)
    (hk : ps[k]? = some vp)
    (hplain : ∀ t ∈ ts, plainToken t) :
    ∃ p2, feed_many (initParser ps) ts = .ok p2 ∧
      dictFind p2.assigned_parameters vp.name =
        appendValues none (ts.drop qs.length) ∧
      (ts.drop qs.length = [] → vp.default_value = none →
        (∀ res, finish p2 false = .ok res →
          s!"Missing value for `{vp.name}`" ∈ res.2) ∧
        (∀ res, finish p2 true = .ok res → ∀ v, (k, v) ∉ res.1)) ∧
      (∀ vals, ts.drop qs.length ≠ [] →
        coercedList vp.type (ts.drop qs.length) = some vals →
        ∀ am res, finish p2 am = .ok res → (k, .vTuple vals) ∈ res.1) := by
  have hklt : k < ps.length := by
    by_contra hc
    rw [List.getElem?_eq_none (Nat.le_of_not_lt hc)] at hk
    cases hk
  have hkv : ps[k] = vp := by
    have h2 := List.getElem?_eq_getElem hklt
    rw [hk] at h2
    exact (Option.some_injective _ h2.symm)
  have hps : ps = ps.take k ++ vp :: ps.drop (k + 1) := by
    have h2 : ps.take k ++ vp :: ps.drop (k + 1) = ps := by
      rw [← hkv, List.get_drop_eq_drop ps k hklt]
      exact List.take_append_drop k ps
    exact h2.symm
  have hnames2 : ((ps.take k).map Parameter.name ++
      vp.name :: (ps.drop (k + 1)).map Parameter.name).Nodup := by
    rw [← List.map_cons, ← List.map_append, ← hps]
    exact hnodup
  have hvp_notin_take : vp.name ∉ (ps.take k).map Parameter.name := by
    rcases List.nodup_append.mp hnames2 with ⟨_, _, hdisj⟩
    intro hmem
    exact hdisj hmem (by simp)
  have hposnodup : ((positionalParameters ps).map Parameter.name).Nodup := by
    exact List.Nodup.sublist
      (List.Sublist.map Parameter.name (List.filter_sublist ps)) hnodup
  have hqsname : ∀ q ∈ qs, q.name ≠ vp.name := by
    intro q hq he
    have hn2 : (qs.map Parameter.name ++ [vp.name]).Nodup := by
      have := hposnodup
      rw [hsplit] at this
      simpa using this
    rcases List.nodup_append.mp hn2 with ⟨_, _, hd⟩
    exact hd (he ▸ List.mem_map_of_mem Parameter.name hq) (by simp)
  obtain ⟨p2, hfm, hpar, hcur2, herr, hfind⟩ := variadic_collect qs vp hvar
    hqsvar hqsname ts (initParser ps) hsplit rfl (Nat.zero_le _) hplain
  have hpar2 : p2.parameters = ps := hpar
  have hfind2 : dictFind p2.assigned_parameters vp.name =
      appendValues none (ts.drop qs.length) := by
    simpa [dictFind] using hfind
  have henum : enumIdx 0 ps = enumIdx 0 (ps.take k) ++
      (k, vp) :: enumIdx (k + 1) (ps.drop (k + 1)) := by
    conv_lhs => rw [hps]
    rw [enumIdx_append, List.length_take, Nat.min_eq_left (le_of_lt hklt),
      Nat.zero_add]
    rfl
  have hpre_name : ∀ pr ∈ enumIdx 0 (ps.take k), pr.2.name ≠ vp.name := by
    intro pr hpr he
    have hmem := (mem_enumIdx _ _ _ hpr).2.2
    exact hvp_notin_take (he ▸ List.mem_map_of_mem Parameter.name hmem)
  have hpre_k : ∀ pr ∈ enumIdx 0 (ps.take k), pr.1 ≠ k := by
    intro pr hpr
    have h2 := (mem_enumIdx _ _ _ hpr).2.1
    rw [List.length_take, Nat.min_eq_left (le_of_lt hklt)] at h2
    omega
  have hpost_k : ∀ pr ∈ enumIdx (k + 1) (ps.drop (k + 1)), pr.1 ≠ k := by
    intro pr hpr
    have h2 := (mem_enumIdx _ _ _ hpr).1
    omega
  refine ⟨p2, hfm, hfind2, ?_, ?_⟩
  · intro hdrop hdef
    have hfnone : dictFind p2.assigned_parameters vp.name = none := by
      rw [hfind2, hdrop]
      rfl
    constructor
    · intro res hres
      obtain ⟨loopres, errs3, hloop, hleft, hreq⟩ :=
        finish_ok_parts p2 false res hcur2 hres
      rw [hpar2, henum] at hloop
      have hmem := finishLoop_missing_mem vp k _ _ _ _ _
        hpre_name hfnone hdef loopres hloop
      rcases leftoverErrors_ext _ _ _ hleft with ⟨e2, he2⟩
      rw [hreq]
      show _ ∈ errs3
      rw [he2]
      exact List.mem_append.mpr (Or.inl hmem)
    · intro res hres v hv
      obtain ⟨loopres, errs3, hloop, hleft, hreq⟩ :=
        finish_ok_parts p2 true res hcur2 hres
      rw [hpar2, henum] at hloop
      rw [hreq] at hv
      have habs := finishLoop_absent_key vp k _ _ _ _ _
        hpre_name hpre_k hpost_k hfnone hdef loopres hloop v hv
      cases habs
  · intro vals hne2 hco am res hres
    have hfsome : dictFind p2.assigned_parameters vp.name =
        some (ts.drop qs.length) := by
      rw [hfind2]
      cases hd : ts.drop qs.length with
      | nil => exact absurd hd hne2
      | cons c l => simp [appendValues]
    obtain ⟨loopres, errs3, hloop, hleft, hreq⟩ :=
      finish_ok_parts p2 am res hcur2 hres
    rw [hpar2, henum] at hloop
    have hmem := finishLoop_variadic_mem vp k (ts.drop qs.length) vals _ _ _ _ _
      am hpre_name hfsome hvar hco loopres hloop
    rw [hreq]
    exact hmem

/-- C9, witness: a required `str` positional followed by a variadic `int`
positional; tokens `["a", "1", "2"]` bind the variadic parameter to the
tuple `(1, 2)`; with no tokens for it and no default, finishing
non-interactively records the missing-value error and finishing with
missing values allowed leaves it absent. -/
theorem variadic_positional_witness :
    (∃ p2, feed_many (initParser
        [⟨"name", none, "name", .strT, false, false, none⟩,
         ⟨"items", none, "items", .intT, false, true, none⟩]) ["a", "1", "2"] =
        .ok p2 ∧
      dictFind p2.assigned_parameters "items" = some ["1", "2"] ∧
      ∀ res, finish p2 false = .ok res →
        (1, Value.vTuple [.vInt 1, .vInt 2]) ∈ res.1) ∧
    (∃ p3, feed_many (initParser
        [⟨"name", none, "name", .strT, false, false, none⟩,
         ⟨"items", none, "items", .intT, false, true, none⟩]) ["a"] =
        .ok p3 ∧
      (∀ res, finish p3 false = .ok res →
        "Missing value for `items`" ∈ res.2) ∧
      (∀ res, finish p3 true = .ok res → ∀ v, (1, v) ∉ res.1)) := by
  constructor
  · obtain ⟨p2, hfm, hfind, _, htuple⟩ := variadic_positional_collection
      [⟨"name", none, "name", .strT, false, false, none⟩,
       ⟨"items", none, "items", .intT, false, true, none⟩]
      [⟨"name", none, "name", .strT, false, false, none⟩]
      ⟨"items", none, "items", .intT, false, true, none⟩ 1 ["a", "1", "2"]
      rfl rfl (by decide) (by decide) rfl (by decide)
    exact ⟨p2, hfm, hfind, fun res h =>
      htuple [.vInt 1, .vInt 2] (by decide) (by rfl) false res h⟩
  · obtain ⟨p3, hfm, hfind, hmiss, _⟩ := variadic_positional_collection
      [⟨"name", none, "name", .strT, false, false, none⟩,
       ⟨"items", none, "items", .intT, false, true, none⟩]
      [⟨"name", none, "name", .strT, false, false, none⟩]
      ⟨"items", none, "items", .intT, false, true, none⟩ 1 ["a"]
      rfl rfl (by decide) (by decide) rfl (by decide)
    exact ⟨p3, hfm, (hmiss (by decide) rfl).1, (hmiss (by decide) rfl).2⟩

/-- A computation that did not crash: it returned a value or raised a
catchable `ArgumentError`. -/
def okOrArgErr {α : Type} (e : Except PErr α) : Prop :=
  (∃ v, e = .ok v) ∨ ∃ m, e = .error (.argumentError m)

theorem insertUniq_ne_nil {α : Type} [DecidableEq α] (x : α) (l : List α) :
    insertUniq x l ≠ [] := by
  unfold insertUniq
  split
  · rename_i hmem
    intro he
    rw [he] at hmem
    cases hmem
  · simp

theorem scanGroup_err_eq (sel : String) (i : Nat) (g : List String) :
    ∀ (st : List Nat × List String) (j : Nat),
    scanGroup sel i g st = .error j → j = i := by
  induction g with
  | nil => intro st j h; cases h
  | cons a rest ih =>
    intro st j h
    unfold scanGroup at h
    dsimp only at h
    split at h
    · cases h; rfl
    · split at h
      · exact ih _ j h
      · exact ih _ j h

theorem scanGroup_ok_idx_sub (sel : String) (i : Nat) (g : List String) :
    ∀ (st st2 : List Nat × List String),
    scanGroup sel i g st = .ok st2 → ∀ j ∈ st2.1, j ∈ st.1 ∨ j = i := by
  induction g with
  | nil =>
    intro st st2 h
    cases h
    exact fun j hj => Or.inl hj
  | cons a rest ih =>
    intro st st2 h
    unfold scanGroup at h
    dsimp only at h
    split at h
    · cases h
    · split at h
      · intro j hj
        rcases ih _ _ h j hj with hm | hm
        · rcases (mem_insertUniq i j st.1).mp hm with rfl | hm2
          · exact Or.inr rfl
          · exact Or.inl hm2
        · exact Or.inr hm
      · exact ih _ _ h

theorem scanGroup_ok_inv (sel : String) (i : Nat) (g : List String) :
    ∀ (st st2 : List Nat × List String), (st.1 = [] ↔ st.2 = []) →
    scanGroup sel i g st = .ok st2 → (st2.1 = [] ↔ st2.2 = []) := by
  induction g with
  | nil =>
    intro st st2 hinv h
    cases h
    exact hinv
  | cons a rest ih =>
    intro st st2 hinv h
    unfold scanGroup at h
    dsimp only at h
    split at h
    · cases h
    · split at h
      · refine ih _ _ ?_ h
        constructor
        · intro he
          exact absurd he (insertUniq_ne_nil i st.1)
        · intro he
          exact absurd he (insertUniq_ne_nil (normalize a) st.2)
      · exact ih _ _ hinv h

theorem scanGroups_err_range (sel : String) (gs : List (List String)) :
    ∀ (k : Nat) (st : List Nat × List String) (j : Nat),
    scanGroups sel gs k st = .error j → k ≤ j ∧ j < k + gs.length := by
  induction gs with
  | nil => intro k st j h; cases h
  | cons g rest ih =>
    intro k st j h
    cases hg : scanGroup sel k g st with
    | error j2 =>
      rw [scanGroups_cons_err sel g rest k st j2 hg] at h
      cases h
      have := scanGroup_err_eq sel k g st j hg
      subst this
      exact ⟨le_refl _, by simp⟩
    | ok st3 =>
      rw [scanGroups_cons_ok sel g rest k st st3 hg] at h
      rcases ih (k + 1) st3 j h with ⟨h1, h2⟩
      exact ⟨by omega, by simp only [List.length_cons]; omega⟩

theorem scanGroups_ok_props (sel : String) (gs : List (List String)) :
    ∀ (k : Nat) (st st2 : List Nat × List String),
    (∀ j ∈ st.1, j < k) → (st.1 = [] ↔ st.2 = []) →
    scanGroups sel gs k st = .ok st2 →
    (∀ j ∈ st2.1, j < k + gs.length) ∧ (st2.1 = [] ↔ st2.2 = []) := by
  induction gs with
  | nil =>
    intro k st st2 hb hinv h
    cases h
    exact ⟨fun j hj => by have := hb j hj; simpa using by omega, hinv⟩
  | cons g rest ih =>
    intro k st st2 hb hinv h
    cases hg : scanGroup sel k g st with
    | error j2 =>
      rw [scanGroups_cons_err sel g rest k st j2 hg] at h
      cases h
    | ok st3 =>
      rw [scanGroups_cons_ok sel g rest k st st3 hg] at h
      have hb3 : ∀ j ∈ st3.1, j < k + 1 := by
        intro j hj
        rcases scanGroup_ok_idx_sub sel k g st st3 hg j hj with hm | rfl
        · have := hb j hm
          omega
        · omega
      have hinv3 := scanGroup_ok_inv sel k g st st3 hinv hg
      rcases ih (k + 1) st3 st2 hb3 hinv3 h with ⟨h1, h2⟩
      refine ⟨?_, h2⟩
      intro j hj
      have := h1 j hj
      simp only [List.length_cons]
      omega

theorem getLast?_cons_some {α : Type} : ∀ (l : List α) (x : α),
    ∃ y, (x :: l).getLast? = some y := by
  intro l
  induction l with
  | nil => intro x; exact ⟨x, rfl⟩
  | cons b t ih =>
    intro x
    rcases ih b with ⟨y, hy⟩
    exact ⟨y, by rw [List.getLast?_cons_cons, hy]⟩

theorem commaSeparatedList_some (values : List String)
    (conjunction quote : Option String) (h : values ≠ []) :
    ∃ s, commaSeparatedList values conjunction quote = some s := by
  unfold commaSeparatedList
  cases values with
  | nil => exact absurd rfl h
  | cons a rest =>
    dsimp only
    cases hq : quote with
    | some q =>
      cases rest with
      | nil => exact ⟨_, rfl⟩
      | cons b rest2 =>
        cases conjunction with
        | none => exact ⟨_, rfl⟩
        | some conj =>
          obtain ⟨y, hy⟩ := getLast?_cons_some
            ((q ++ b ++ q) :: rest2.map (fun v => q ++ v ++ q)) (q ++ a ++ q)
          simp only [List.map_cons]
          rw [hy]
          exact ⟨_, rfl⟩
    | none =>
      cases rest with
      | nil => exact ⟨_, rfl⟩
      | cons b rest2 =>
        cases conjunction with
        | none => exact ⟨_, rfl⟩
        | some conj =>
          obtain ⟨y, hy⟩ := getLast?_cons_some (b :: rest2) a
          rw [hy]
          exact ⟨_, rfl⟩

theorem choose_string_classify (options : List (List String))
    (selection : String) (hne : ∀ g ∈ options, g ≠ []) :
    (∃ i, i < options.length ∧
      choose_string options selection = .ok (.found i)) ∨
    (∃ canon, choose_string options selection =
      .ok (.noSuchOption (normalize selection) canon)) ∨
    (∃ vals canon, vals ≠ [] ∧ choose_string options selection =
      .ok (.ambiguousOption (normalize selection) vals canon)) := by
  cases hscan : scanGroups (normalize selection) options 0 ([], []) with
  | error i =>
    rcases scanGroups_err_range (normalize selection) options 0 ([], []) i
      hscan with ⟨_, h2⟩
    exact Or.inl ⟨i, by simpa using h2, by simp only [choose_string, hscan]⟩
  | ok st2 =>
    obtain ⟨I, V⟩ := st2
    rcases scanGroups_ok_props (normalize selection) options 0 ([], []) (I, V)
      (by simp) (by simp) hscan with ⟨hbound, hinv⟩
    cases hI : I with
    | nil =>
      refine Or.inr (Or.inl ⟨options.map (fun g => g.headD ""), ?_⟩)
      rw [hI] at hscan
      simp only [choose_string, hscan, heads_of_nonempty options hne]
    | cons i rest =>
      cases hrest : rest with
      | nil =>
        refine Or.inl ⟨i, ?_, ?_⟩
        · have := hbound i (by simp [hI])
          simpa using this
        · rw [hI, hrest] at hscan
          simp only [choose_string, hscan]
      | cons b t =>
        refine Or.inr (Or.inr ⟨V, options.map (fun g => g.headD ""), ?_, ?_⟩)
        · intro hv
          have : I = [] := hinv.mpr hv
          rw [hI, hrest] at this
          cases this
        · rw [hI, hrest] at hscan
          simp only [choose_string, hscan, heads_of_nonempty options hne]

theorem parse_literal_okOrArg (raw : String) (opts : List String)
    (hne : opts ≠ []) : okOrArgErr (_parse_literal raw opts) := by
  have hgne : ∀ g ∈ opts.map (fun v => [v]), g ≠ [] := by
    intro g hg
    rcases List.mem_map.mp hg with ⟨v, _, rfl⟩
    simp
  rcases choose_string_classify (opts.map (fun v => [v])) raw hgne with
    ⟨i, hil, hfound⟩ | ⟨canon, hns⟩ | ⟨vals, canon, hvne, hamb⟩
  · rw [List.length_map] at hil
    refine Or.inl ⟨opts[i], ?_⟩
    unfold _parse_literal
    rw [hfound]
    dsimp only
    rw [List.getElem?_eq_getElem hil]
  · rcases commaSeparatedList_some opts (some "and") (some "`") hne with ⟨s, hs⟩
    refine Or.inr
      ⟨s!"`{raw}` is not valid here. Please provide one of {s}", ?_⟩
    unfold _parse_literal
    rw [hns]
    dsimp only
    rw [hs]
  · rcases commaSeparatedList_some vals (some "and") (some "`") hvne with ⟨s, hs⟩
    refine Or.inr
      ⟨s!"`{raw}` is ambiguous here. It could refer to either of {s}", ?_⟩
    unfold _parse_literal
    rw [hamb]
    dsimp only
    rw [hs]

/-- The primitive type descriptors the claim calls supported: `str`,
`typing.Any`, a non-empty literal set, `bool`, `int`, `float`. -/
def TypeDesc.supportedBase : TypeDesc → Bool
  | .strT => true
  | .anyT => true
  | .boolT => true
  | .intT => true
  | .floatT => true
  | .literalT opts => !opts.isEmpty
  | _ => false

/-- A supported descriptor: a supported primitive, or an optional/union whose
members are supported primitives or `NoneType`. -/
def TypeDesc.supported : TypeDesc → Bool
  | .unionT ms => ms.all (fun t => t.isNoneT || t.supportedBase)
  | t => t.supportedBase

theorem parse_bool_okOrArg (v : String) : okOrArgErr (_parse_bool v) := by
  unfold _parse_bool
  dsimp only
  split
  · exact Or.inl ⟨_, rfl⟩
  · split
    · exact Or.inl ⟨_, rfl⟩
    · exact Or.inr ⟨_, rfl⟩

theorem parse_value_base_okOrArg (v : String) (t : TypeDesc)
    (h : t.supportedBase = true) : okOrArgErr (parse_value v t) := by
  cases t with
  | strT => exact Or.inl ⟨_, rfl⟩
  | anyT => exact Or.inl ⟨_, rfl⟩
  | boolT =>
    rcases parse_bool_okOrArg v with ⟨b, hb⟩ | ⟨m, hm⟩
    · refine Or.inl ⟨Value.vBool b, ?_⟩
      show (match _parse_bool v with
        | Except.ok b2 => Except.ok (Value.vBool b2)
        | Except.error e => Except.error e) = _
      rw [hb]
    · refine Or.inr ⟨m, ?_⟩
      show (match _parse_bool v with
        | Except.ok b2 => Except.ok (Value.vBool b2)
        | Except.error e => Except.error e) = _
      rw [hm]
  | intT =>
    unfold parse_value _parse_int
    cases pyIntOfString v with
    | some n => exact Or.inl ⟨_, rfl⟩
    | none => exact Or.inr ⟨_, rfl⟩
  | floatT =>
    unfold parse_value _parse_float
    by_cases hf : pyFloatOk v = true
    · rw [if_pos hf]
      exact Or.inl ⟨_, rfl⟩
    · rw [if_neg hf]
      exact Or.inr ⟨_, rfl⟩
  | literalT opts =>
    have hne : opts ≠ [] := by
      simp only [TypeDesc.supportedBase, Bool.not_eq_eq_eq_not, Bool.not_true] at h
      intro he
      rw [he] at h
      cases h
    rcases parse_literal_okOrArg v opts hne with ⟨w, hw⟩ | ⟨m, hm⟩
    · refine Or.inl ⟨Value.vStr w, ?_⟩
      show (match _parse_literal v opts with
        | Except.ok w2 => Except.ok (Value.vStr w2)
        | Except.error e => Except.error e) = _
      rw [hw]
    · refine Or.inr ⟨m, ?_⟩
      show (match _parse_literal v opts with
        | Except.ok w2 => Except.ok (Value.vStr w2)
        | Except.error e => Except.error e) = _
      rw [hm]
  | noneT => cases h
  | unionT ms => cases h

theorem parseUnionMembers_okOrArg (v : String) (whole : TypeDesc) :
    ∀ ms : List TypeDesc,
    (∀ t ∈ ms, t.isNoneT = true ∨ t.supportedBase = true) →
    okOrArgErr (parseUnionMembers v whole ms) := by
  intro ms
  induction ms with
  | nil => intro h; exact Or.inr ⟨_, rfl⟩
  | cons t rest ih =>
    intro h
    have hrest : ∀ x ∈ rest, x.isNoneT = true ∨ x.supportedBase = true :=
      fun x hx => h x (by simp [hx])
    rcases h t (by simp) with hn | hb
    · have ht : t = TypeDesc.noneT := by
        cases t <;> first | rfl | cases hn
      subst ht
      rw [show parseUnionMembers v whole (TypeDesc.noneT :: rest) =
        parseUnionMembers v whole rest from rfl]
      exact ih hrest
    · rcases parse_value_base_okOrArg v t hb with ⟨w, hw⟩ | ⟨m, hm⟩
      · refine Or.inl ⟨w, ?_⟩
        cases t <;> simp_all [parseUnionMembers, TypeDesc.supportedBase]
      · rw [show parseUnionMembers v whole (t :: rest) =
          parseUnionMembers v whole rest from by
            cases t <;> simp_all [parseUnionMembers, TypeDesc.supportedBase]]
        exact ih hrest

theorem parse_value_supported_okOrArg (v : String) (t : TypeDesc)
    (h : t.supported = true) : okOrArgErr (parse_value v t) := by
  cases t with
  | unionT ms =>
    have hm : ∀ u ∈ ms, u.isNoneT = true ∨ u.supportedBase = true := by
      intro u hu
      have := (List.all_eq_true.mp h) u hu
      rcases Bool.or_eq_true_iff.mp this with h2 | h2
      · exact Or.inl h2
      · exact Or.inr h2
    exact parseUnionMembers_okOrArg v (.unionT ms) ms hm
  | strT => exact parse_value_base_okOrArg v _ h
  | anyT => exact parse_value_base_okOrArg v _ h
  | boolT => exact parse_value_base_okOrArg v _ h
  | intT => exact parse_value_base_okOrArg v _ h
  | floatT => exact parse_value_base_okOrArg v _ h
  | literalT opts => exact parse_value_base_okOrArg v _ h
  | noneT => cases h

/-- Well-formedness of the assigned-values dictionary: every entry holds at
least one raw value (true throughout, since entries are only created by
appending a value). -/
def assignedWF (d : List (String × List String)) : Prop :=
  ∀ kv ∈ d, kv.2 ≠ []

theorem dictAppend_wf (d : List (String × List String)) (k v : String)
    (h : assignedWF d) : assignedWF (dictAppend d k v) := by
  induction d with
  | nil =>
    intro kv hkv
    rcases List.mem_singleton.mp hkv with rfl
    simp
  | cons kv2 rest ih =>
    obtain ⟨k2, vs⟩ := kv2
    intro kv hkv
    unfold dictAppend at hkv
    split at hkv
    · rcases List.mem_cons.mp hkv with heq2 | hm
      · rw [heq2]
        simp
      · exact h kv (by simp [hm])
    · rcases List.mem_cons.mp hkv with heq2 | hm
      · rw [heq2]
        exact h (k2, vs) (by simp)
      · exact ih (fun kv3 hkv3 => h kv3 (by simp [hkv3])) kv hm

theorem dictRemove_wf (d : List (String × List String)) (k : String)
    (h : assignedWF d) : assignedWF (dictRemove d k) := by
  induction d with
  | nil => intro kv hkv; cases hkv
  | cons kv2 rest ih =>
    obtain ⟨k2, vs⟩ := kv2
    intro kv hkv
    unfold dictRemove at hkv
    split at hkv
    · exact h kv (by simp [hkv])
    · rcases List.mem_cons.mp hkv with heq2 | hm
      · rw [heq2]
        exact h (k2, vs) (by simp)
      · exact ih (fun kv3 hkv3 => h kv3 (by simp [hkv3])) kv hm

theorem feedClusterFlag_fields (lookup : String → Option Parameter)
    (st : ParserState) (bf : String) :
    (feedClusterFlag lookup st bf).parameters = st.parameters ∧
    (feedClusterFlag lookup st bf).current_parameter = st.current_parameter ∧
    (assignedWF st.assigned_parameters →
      assignedWF (feedClusterFlag lookup st bf).assigned_parameters) := by
  unfold feedClusterFlag
  dsimp only
  split
  · exact ⟨rfl, rfl, fun h => h⟩
  · exact ⟨rfl, rfl, fun h => dictAppend_wf _ _ _ h⟩

theorem foldl_cluster_fields (lookup : String → Option Parameter) :
    ∀ (l : List String) (st : ParserState),
    (l.foldl (feedClusterFlag lookup) st).parameters = st.parameters ∧
    (l.foldl (feedClusterFlag lookup) st).current_parameter =
      st.current_parameter ∧
    (assignedWF st.assigned_parameters →
      assignedWF (l.foldl (feedClusterFlag lookup) st).assigned_parameters) := by
  intro l
  induction l with
  | nil => intro st; exact ⟨rfl, rfl, fun h => h⟩
  | cons bf rest ih =>
    intro st
    rcases feedClusterFlag_fields lookup st bf with ⟨h1, h2, h3⟩
    rcases ih (feedClusterFlag lookup st bf) with ⟨h4, h5, h6⟩
    exact ⟨h4.trans h1, h5.trans h2, fun h => h6 (h3 h)⟩

theorem feedFlags_ok (p : ParserState) (ns : List String)
    (v2 : Option String) (us : Bool) (hne : ns ≠ [])
    (hcur : p.current_parameter = none) :
    ∃ p2, feedFlags p ns v2 us = .ok p2 ∧ p2.parameters = p.parameters ∧
      (assignedWF p.assigned_parameters →
        assignedWF p2.assigned_parameters) := by
  unfold feedFlags
  rw [hcur]
  cases ns with
  | nil => exact absurd rfl hne
  | cons a l =>
    obtain ⟨y, hy⟩ := getLast?_cons_some l a
    simp only [List.isEmpty_cons, Bool.false_eq_true, if_false,
      Option.isSome_none, hy]
    rcases foldl_cluster_fields
      (fun n => if us = true then parametersByShorthand p.parameters n
        else parametersByName p.parameters n) ((a :: l).dropLast) p with
      ⟨h1, h2, h3⟩
    cases v2 with
    | some v =>
      dsimp only
      exact ⟨_, rfl, h1, fun h => dictAppend_wf _ _ _ (h3 h)⟩
    | none =>
      dsimp only
      cases hlook : (if us = true then parametersByShorthand p.parameters y
          else parametersByName p.parameters y) with
      | some param =>
        dsimp only
        by_cases hbool : param.type.isBool = true
        · rw [if_pos hbool]
          exact ⟨_, rfl, h1, fun h => dictAppend_wf _ _ _ (h3 h)⟩
        · rw [if_neg hbool]
          exact ⟨_, rfl, h1, h3⟩
      | none =>
        dsimp only
        exact ⟨_, rfl, h1, h3⟩

theorem matchFlagBody_name_ne (good : Char → Bool) (cs : List Char)
    (name : List Char) (v2 : Option String)
    (h : matchFlagBody good cs = some (name, v2)) : name ≠ [] := by
  unfold matchFlagBody at h
  dsimp only at h
  split at h
  · cases h
  · rename_i hemp
    split at h
    · cases h
      intro he
      exact hemp (by rw [he]; rfl)
    · split at h
      · cases h
        intro he
        exact hemp (by rw [he]; rfl)
      · cases h

theorem matchShortFlag_letters_ne (s : String) (letters : List Char)
    (v2 : Option String) (h : matchShortFlag s = some (letters, v2)) :
    letters ≠ [] := by
  unfold matchShortFlag at h
  split at h
  · rename_i c1 cs heq
    split at h
    · exact matchFlagBody_name_ne isShortNameChar cs letters v2 h
    · cases h
  · cases h

theorem feedPositional_ok (p : ParserState) (t : String) :
    (feedPositional p t).parameters = p.parameters ∧
    (assignedWF p.assigned_parameters →
      assignedWF (feedPositional p t).assigned_parameters) := by
  unfold feedPositional
  cases (positionalParameters p.parameters)[p.next_positional_parameter_index]? with
  | none => exact ⟨rfl, fun h => h⟩
  | some param =>
    dsimp only
    split
    · exact ⟨rfl, fun h => dictAppend_wf _ _ _ h⟩
    · exact ⟨rfl, fun h => dictAppend_wf _ _ _ h⟩

theorem feed_one_ok (p : ParserState) (t : String) :
    ∃ p2, feed_one p t = .ok p2 ∧ p2.parameters = p.parameters ∧
      (assignedWF p.assigned_parameters →
        assignedWF p2.assigned_parameters) := by
  unfold feed_one
  cases hc : p.current_parameter with
  | some cur => exact ⟨_, rfl, rfl, fun h => dictAppend_wf _ _ _ h⟩
  | none =>
    cases hall : p.allow_flags with
    | false =>
      simp only [Bool.false_eq_true, if_false]
      rcases feedPositional_ok p t with ⟨h1, h2⟩
      exact ⟨_, rfl, h1, h2⟩
    | true =>
      simp only [if_true]
      by_cases hdd : t = "--"
      · rw [if_pos hdd]
        exact ⟨_, rfl, rfl, fun h => h⟩
      · rw [if_neg hdd]
        cases hlf : matchLongFlag t with
        | some pr =>
          obtain ⟨name, v2⟩ := pr
          exact feedFlags_ok p [name] v2 false (by simp) hc
        | none =>
          cases hsf : matchShortFlag t with
          | some pr =>
            obtain ⟨letters, v2⟩ := pr
            refine feedFlags_ok p (letters.map (fun c => String.mk [c])) v2
              true ?_ hc
            have := matchShortFlag_letters_ne t letters v2 hsf
            intro he
            rw [List.map_eq_nil_iff] at he
            exact this he
          | none =>
            rcases feedPositional_ok p t with ⟨h1, h2⟩
            exact ⟨_, rfl, h1, h2⟩

theorem feed_many_ok : ∀ (ts : List String) (p : ParserState),
    ∃ p2, feed_many p ts = .ok p2 ∧ p2.parameters = p.parameters ∧
      (assignedWF p.assigned_parameters →
        assignedWF p2.assigned_parameters) := by
  intro ts
  induction ts with
  | nil => intro p; exact ⟨p, rfl, rfl, fun h => h⟩
  | cons t rest ih =>
    intro p
    rcases feed_one_ok p t with ⟨p2, h1, h2, h3⟩
    rcases ih p2 with ⟨p3, h4, h5, h6⟩
    exact ⟨p3, by rw [feed_many_cons_ok _ _ _ _ h1]; exact h4,
      h5.trans h2, fun h => h6 (h3 h)⟩

theorem finishCoerce_ok (name : String) (typ : TypeDesc)
    (hsup : typ.supported = true) :
    ∀ (raws : List String) (errors : List String),
    ∃ out, finishCoerce name typ raws errors = .ok out := by
  intro raws
  induction raws with
  | nil => intro errors; exact ⟨([], errors), rfl⟩
  | cons r rest ih =>
    intro errors
    unfold finishCoerce
    rcases parse_value_supported_okOrArg r typ hsup with ⟨v, hv⟩ | ⟨m, hm⟩
    · rw [hv]
      dsimp only
      rcases ih errors with ⟨out, hout⟩
      obtain ⟨vals, errs⟩ := out
      rw [hout]
      exact ⟨(v :: vals, errs), rfl⟩
    · rw [hm]
      dsimp only
      exact ih _

theorem finishStep_ok (i : Nat) (param : Parameter)
    (assigned : List (String × List String)) (errors : List String)
    (result : List (Nat × Value)) (am : Bool)
    (hsup : param.type.supported = true) (hwf : assignedWF assigned) :
    ∃ out, finishStep i param assigned errors result am = .ok out ∧
      assignedWF out.1 := by
  unfold finishStep
  cases hfind : dictFind assigned param.name with
  | none =>
    dsimp only
    cases param.default_value with
    | some d => exact ⟨_, rfl, hwf⟩
    | none =>
      dsimp only
      by_cases ham : am = true
      · rw [if_pos ham]
        exact ⟨_, rfl, hwf⟩
      · rw [if_neg ham]
        exact ⟨_, rfl, hwf⟩
  | some raws =>
    dsimp only
    have hwf2 : assignedWF (dictRemove assigned param.name) :=
      dictRemove_wf assigned param.name hwf
    split
    · exact ⟨_, rfl, hwf2⟩
    · rcases finishCoerce_ok param.name param.type hsup raws errors with
        ⟨out2, hout2⟩
      obtain ⟨vals, errs2⟩ := out2
      rw [hout2]
      dsimp only
      by_cases hvar : param.is_variadic = true
      · rw [if_pos hvar]
        exact ⟨_, rfl, hwf2⟩
      · rw [if_neg hvar]
        cases vals with
        | nil => exact ⟨_, rfl, hwf2⟩
        | cons v vs => exact ⟨_, rfl, hwf2⟩

theorem finishLoop_ok : ∀ (pairs : List (Nat × Parameter))
    (assigned : List (String × List String)) (errors : List String)
    (acc : List (Nat × Value)) (am : Bool),
    (∀ pr ∈ pairs, pr.2.type.supported = true) → assignedWF assigned →
    ∃ res, finishLoop pairs assigned errors acc am = .ok res ∧
      assignedWF res.2.1 := by
  intro pairs
  induction pairs with
  | nil =>
    intro assigned errors acc am hsup hwf
    exact ⟨(acc, assigned, errors), rfl, hwf⟩
  | cons pr0 rest ih =>
    intro assigned errors acc am hsup hwf
    obtain ⟨i, q⟩ := pr0
    rcases finishStep_ok i q assigned errors acc am (hsup (i, q) (by simp))
      hwf with ⟨out, hout, hwf2⟩
    rw [finishLoop_cons_ok i q rest assigned errors acc am out hout]
    exact ih out.1 out.2.1 out.2.2 am
      (fun pr hpr => hsup pr (by simp [hpr])) hwf2

theorem leftoverErrors_ok : ∀ (leftover : List (String × List String)),
    assignedWF leftover → ∀ errors,
    ∃ errs2, leftoverErrors leftover errors = .ok errs2 := by
  intro leftover
  induction leftover with
  | nil => intro _ errors; exact ⟨errors, rfl⟩
  | cons kv rest ih =>
    intro hwf errors
    obtain ⟨k3, vs⟩ := kv
    cases hvs : vs with
    | nil => exact absurd (hvs ▸ hwf (k3, vs) (by simp)) (by simp [hvs])
    | cons v vs2 =>
      exact ih (fun kv2 hkv2 => hwf kv2 (by simp [hkv2])) _

theorem finish_ok (p : ParserState) (am : Bool)
    (hsup : ∀ pr ∈ enumIdx 0 p.parameters, pr.2.type.supported = true)
    (hwf : assignedWF p.assigned_parameters) :
    ∃ res, finish p am = .ok res := by
  unfold finish
  dsimp only
  rcases finishLoop_ok (enumIdx 0 p.parameters) p.assigned_parameters
    (match p.current_parameter with
     | some cur => p.errors ++ [s!"Missing value for `{cur}`"]
     | none => p.errors) [] am hsup hwf with ⟨lr, hlr, hwf2⟩
  rw [hlr]
  obtain ⟨r, l, e⟩ := lr
  dsimp only
  rcases leftoverErrors_ok l hwf2 e with ⟨e2, he2⟩
  rw [he2]
  exact ⟨(r, e2), rfl⟩

/-- C10: for every parameter list whose types are supported descriptors and
every token sequence, feeding all tokens and then finishing never raises: no
internal assertion (in particular the flag-handling assertion that no
parameter is still awaiting a value) and no uncaught exception fires, and
the parse completes with a result and an accumulated error list. -/
theorem parser_never_raises_on_supported (ps : List Parameter)
    (ts : List String) (am : Bool)
    (hsup : ∀ param ∈ ps, param.type.supported = true) :
    ∃ p2 res, feed_many (initParser ps) ts = .ok p2 ∧
      finish p2 am = .ok res := by
  rcases feed_many_ok ts (initParser ps) with ⟨p2, hfm, hpar, hwfimp⟩
  have hpar2 : p2.parameters = ps := hpar
  have hwf : assignedWF p2.assigned_parameters :=
    hwfimp (fun kv hkv => by cases hkv)
  have hsup2 : ∀ pr ∈ enumIdx 0 p2.parameters, pr.2.type.supported = true := by
    rw [hpar2]
    intro pr hpr
    exact hsup pr.2 (mem_enumIdx ps 0 pr hpr).2.2
  rcases finish_ok p2 am hsup2 hwf with ⟨res, hres⟩
  exact ⟨p2, res, hfm, hres⟩

/-- C10, witness: a parameter list covering every supported descriptor kind,
fed a token soup with unknown flags, clustered shorthands, a stray `=`
form, the end-of-flags marker and overflow, still parses to completion. -/
theorem parser_never_raises_witness :
    ∃ p2 res, feed_many (initParser
      [⟨"name", none, "name", .strT, false, false, none⟩,
       ⟨"color", none, "color", .literalT ["red", "green"], true, false, none⟩,
       ⟨"count", some "c", "count", .intT, true, false, some (.vInt 1)⟩,
       ⟨"ratio", none, "ratio", .floatT, true, false, none⟩,
       ⟨"mode", none, "mode", .unionT [.noneT, .intT, .boolT], true, false,
         some .vNone⟩])
      ["-zc=q", "--color", "blue", "--ratio=x", "--unknown", "--", "--count",
       "extra"] = .ok p2 ∧ finish p2 false = .ok res :=
  parser_never_raises_on_supported
    [⟨"name", none, "name", .strT, false, false, none⟩,
     ⟨"color", none, "color", .literalT ["red", "green"], true, false, none⟩,
     ⟨"count", some "c", "count", .intT, true, false, some (.vInt 1)⟩,
     ⟨"ratio", none, "ratio", .floatT, true, false, none⟩,
     ⟨"mode", none, "mode", .unionT [.noneT, .intT, .boolT], true, false,
       some .vNone⟩]
    ["-zc=q", "--color", "blue", "--ratio=x", "--unknown", "--", "--count",
     "extra"] false (by decide)

end Revel
